import Mathlib

/-!
Verification of the configuration-resolution layer in
`flame/config_manager.py` (class `JobConfig` and its helpers).

The Python source is shallowly embedded below.  Conventions of the
embedding:

* Python values flowing through the resolver are modelled by `Value`
  (strings, ints, floats, bools, lists of strings, lists of lists of
  strings, `None`).  Floats carry no arithmetic in the source; they are
  modelled exactly as a normalized decimal significand/exponent pair, so
  equal decimal literals denote equal values.
* `argparse` is modelled over the feature subset the source uses:
  long options given as separate exact tokens (`--section.key value`),
  `store_true` / `store_false` actions with an explicit `dest`,
  `type=` conversion functions (`str`, `int`, `float`, `string_list`,
  and the degenerate `NoneType` / `list` types that the auxiliary parser
  can infer), `choices=`, `nargs="+"` / `nargs="*"`, default values,
  `argument_default=SUPPRESS`, strict `parse_args` and permissive
  `parse_known_args`.  Flag-prefix abbreviation and the `--name=value`
  spelling are outside the modelled subset; theorems quantifying over
  command lines speak about token lists in this subset.
* `open` + `tomllib.load` are modelled by a finite table from file
  names to outcomes (`FileNotFoundError`, `TOMLDecodeError`, or a parsed
  two-level document); `logger.exception` calls are modelled by the list
  of messages the call would emit.
* The dynamically synthesized per-section classes
  (`type(k.title(), (), v)`) expose exactly the entries of
  `self.args_dict[k]` as attributes, so `_validate_config` is modelled
  by lookups into the resolved two-level mapping.
-/

set_option maxRecDepth 100000

namespace Flame

/-! ### Python string primitives (over `String.data`, kernel-reducible) -/

/-- Whitespace characters stripped by Python `str.strip()`. -/
def pyWs (c : Char) : Bool :=
  c = ' ' || c = '\t' || c = '\n' || c = '\r' || c = '\x0b' || c = '\x0c'

/-- Python `str.strip()`. -/
def pyStrip (s : String) : String :=
  String.mk (((s.data.dropWhile pyWs).reverse.dropWhile pyWs).reverse)

/-- Helper for `splitComma`: accumulate characters until a comma. -/
def splitCommaAux : List Char → List Char → List String
  | [], acc => [String.mk acc.reverse]
  | ',' :: t, acc => String.mk acc.reverse :: splitCommaAux t []
  | c :: t, acc => splitCommaAux t (c :: acc)

/-- Python `str.split(",")` (keeps empty segments; `"".split(",") = [""]`). -/
def splitComma (s : String) : List String :=
  splitCommaAux s.data []

/-- Helper for `splitDot`: split a string at its first dot. -/
def splitDotAux : List Char → List Char → String × String
  | [], acc => (String.mk acc.reverse, "")
  | '.' :: t, acc => (String.mk acc.reverse, String.mk t)
  | c :: t, acc => splitDotAux t (c :: acc)

/-- Python `k.split(".", 1)` for keys of the form `section.key`.  Every
namespace key produced by the catalog contains a dot, so the dotless
fallback `(s, "")` is never exercised by the embedded program. -/
def splitDot (s : String) : String × String :=
  splitDotAux s.data []

/-- Rejoin the two halves produced by `splitDot`. -/
def joinDot (p : String × String) : String :=
  p.1 ++ "." ++ p.2

/-- Value of a digit character. -/
def digitVal (c : Char) : Nat := c.toNat - 48

/-- Accumulate a decimal digit string into a natural number. -/
def digitsToNat (cs : List Char) : Nat :=
  cs.foldl (fun n c => n * 10 + digitVal c) 0

/-- Python `int(token)` as used by `argparse` for `type=int` options:
optional surrounding whitespace, optional sign, one or more digits
(the rarely used underscore separators are outside the model). -/
def parsePyInt (s : String) : Option Int :=
  let cs := (pyStrip s).data
  match cs with
  | '-' :: ds =>
    if ds ≠ [] ∧ ds.all Char.isDigit then some (-(digitsToNat ds : Int)) else none
  | '+' :: ds =>
    if ds ≠ [] ∧ ds.all Char.isDigit then some (digitsToNat ds : Int) else none
  | ds =>
    if ds ≠ [] ∧ ds.all Char.isDigit then some (digitsToNat ds : Int) else none

/-- Strip factors of ten from a decimal significand (`fuel` bounds the
number of iterations; callers pass the magnitude of the significand). -/
def stripTens : Nat → Int → Int → Int × Int
  | 0, sig, ex => (sig, ex)
  | fuel + 1, sig, ex =>
    if sig ≠ 0 ∧ sig % 10 = 0 then stripTens fuel (sig / 10) (ex + 1) else (sig, ex)

/-- Normalize a decimal significand/exponent pair so that equal decimal
numerals receive equal representations. -/
def normFloat (sig : Int) (ex : Int) : Int × Int :=
  if sig = 0 then (0, 0) else stripTens sig.natAbs sig ex

/-- Parse the mantissa part `digits[.digits]` of a decimal float.
Returns the significand digits and the fractional length. -/
def parseMantissa (cs : List Char) : Option (Nat × Nat) :=
  let ip := cs.takeWhile Char.isDigit
  let rest := cs.dropWhile Char.isDigit
  match rest with
  | [] => if ip ≠ [] then some (digitsToNat ip, 0) else none
  | '.' :: fp =>
    if fp.all Char.isDigit ∧ (ip ≠ [] ∨ fp ≠ []) then
      some (digitsToNat (ip ++ fp), fp.length)
    else none
  | _ => none

/-- Split off an exponent marker `e`/`E`. -/
def splitExpAux : List Char → List Char → List Char × Option (List Char)
  | [], acc => (acc.reverse, none)
  | 'e' :: t, acc => (acc.reverse, some t)
  | 'E' :: t, acc => (acc.reverse, some t)
  | c :: t, acc => splitExpAux t (c :: acc)

/-- Python `float(token)` for ordinary decimal forms
`[sign] digits [. digits] [e [sign] digits]` (special forms such as
`inf`/`nan` are outside the model).  The result is a normalized
significand/exponent pair. -/
def parsePyFloat (s : String) : Option (Int × Int) :=
  let cs := (pyStrip s).data
  let signed : List Char ⊕ List Char :=
    match cs with
    | '-' :: t => Sum.inr t
    | '+' :: t => Sum.inl t
    | t => Sum.inl t
  let body := match signed with | Sum.inl t => t | Sum.inr t => t
  let neg := match signed with | Sum.inl _ => false | Sum.inr _ => true
  let (mant, expPart) := splitExpAux body []
  match parseMantissa mant with
  | none => none
  | some (sig, fracLen) =>
    let e0 : Option Int :=
      match expPart with
      | none => some 0
      | some ecs => parsePyInt (String.mk ecs)
    match e0 with
    | none => none
    | some e =>
      let sigZ : Int := if neg then -(sig : Int) else (sig : Int)
      some (normFloat sigZ (e - (fracLen : Int)))

/-! ### Values -/

/-- Python values handled by the resolver. -/
inductive Value where
  | vstr : String → Value
  | vint : Int → Value
  | vfloat : Int → Int → Value
  | vbool : Bool → Value
  | vlist : List String → Value
  | vnested : List (List String) → Value
  | vnone : Value
deriving DecidableEq

/-- Python truthiness of a `Value` (`assert v` succeeds iff `bool(v)`). -/
def pyTruthy : Value → Bool
  | .vstr s => s ≠ ""
  | .vint n => n ≠ 0
  | .vfloat sig _ => sig ≠ 0
  | .vbool b => b
  | .vlist l => l ≠ []
  | .vnested l => l ≠ []
  | .vnone => false

/-- Test for the string constructor (`isinstance(v, str)`). -/
def Value.isVStr : Value → Bool
  | .vstr _ => true
  | _ => false

/-- Test for the boolean constructor (`isinstance(val, bool)`, which
steers the auxiliary-parser construction). -/
def Value.isVBool : Value → Bool
  | .vbool _ => true
  | _ => false

/-! ### Association maps (namespaces and two-level dicts) -/

/-- An `argparse.Namespace`: insertion-ordered mapping from destination
names to values. -/
abbrev NS := List (String × Value)

/-- One section of the two-level dict. -/
abbrev Section := List (String × Value)

/-- The two-level `section -> key -> value` mapping
(`defaultdict(defaultdict)` in the source). -/
abbrev TwoLevel := List (String × Section)

/-- Set a key in an insertion-ordered mapping (Python `d[k] = v`). -/
def setKey {α : Type} : List (String × α) → String → α → List (String × α)
  | [], k, v => [(k, v)]
  | (k0, v0) :: t, k, v =>
    if k0 = k then (k0, v) :: t else (k0, v0) :: setKey t k v

/-- Keys of an insertion-ordered mapping. -/
def keysOf {α : Type} (m : List (String × α)) : List String :=
  m.map Prod.fst

/-- Look up `section`/`key` in a two-level dict. -/
def lookup2 (d : TwoLevel) (s k : String) : Option Value :=
  match List.lookup s d with
  | some m => List.lookup k m
  | none => none

/-- Set `d[s][k] = v`, creating section `s` at the end if absent
(`defaultdict` behaviour). -/
def set2 : TwoLevel → String → String → Value → TwoLevel
  | [], s, k, v => [(s, [(k, v)])]
  | (s0, m) :: t, s, k, v =>
    if s0 = s then (s0, setKey m k v) :: t else (s0, m) :: set2 t s k v

/-! ### `string_list` and `check_string_list_argument` (module helpers) -/

/-- `string_list(raw_arg)`: comma-separated string list argument. -/
def string_list (raw : String) : List String :=
  ((splitComma raw).map pyStrip).filter (fun s => s ≠ "")

/-- `check_string_list_argument(args_dict, fullargname)`: split a
string-list value that is still a raw string. -/
def check_string_list_argument (args_dict : TwoLevel) (fullargname : String) : TwoLevel :=
  let p := splitDot fullargname
  match lookup2 args_dict p.1 p.2 with
  | some (.vstr s) => set2 args_dict p.1 p.2 (.vlist (string_list s))
  | _ => args_dict

/-! ### The argparse model -/

/-- Conversion functions (`type=` arguments).  `tyStr` also covers
options declared without an explicit `type` (argparse stores the raw
token either way).  `tyNoneTy` models the auxiliary parser inferring
`type(None) = NoneType`, which fails on every token; `tyPyList` models
`type([]) = list`, which splits a token into its characters. -/
inductive ArgTy where
  | tyStr | tyInt | tyFloat | tyStrList | tyNoneTy | tyPyList
deriving DecidableEq

/-- `nargs=` values used by the source. -/
inductive Nargs where
  | nplus | nstar
deriving DecidableEq

/-- The kinds of `add_argument` actions the source registers.
`storeMulti` is a `type=string_list` option with `nargs`. -/
inductive ActKind where
  | flagTrue
  | flagFalse
  | store : ArgTy → ActKind
  | storeMulti : Nargs → ActKind
deriving DecidableEq

/-- One registered `add_argument` action. -/
structure Action where
  flag : String
  dest : String
  kind : ActKind
  dflt : Value
  choices : List String
deriving DecidableEq

/-- Register an option whose `dest` (the flag without the leading
`--`, as argparse derives it) is written out explicitly so that the
catalog is already in normal form. -/
def actT (flag dest : String) (kind : ActKind) (dflt : Value) : Action :=
  ⟨flag, dest, kind, dflt, []⟩

/-- Register an option with a `choices=` list. -/
def actC (flag dest : String) (kind : ActKind) (dflt : Value) (cs : List String) : Action :=
  ⟨flag, dest, kind, dflt, cs⟩

/-- Apply a conversion function to one command-line token. -/
def convert : ArgTy → String → Option Value
  | .tyStr, tok => some (.vstr tok)
  | .tyInt, tok => (parsePyInt tok).map Value.vint
  | .tyFloat, tok => (parsePyFloat tok).map (fun p => Value.vfloat p.1 p.2)
  | .tyStrList, tok => some (.vlist (string_list tok))
  | .tyNoneTy, _ => none
  | .tyPyList, tok => some (.vlist (tok.data.map (fun c => String.mk [c])))

/-- Does `\d+` or `\d*\.\d+` match the characters after a leading dash?
(argparse `_negative_number_matcher`; the parsers here register no
digit-like option strings, so such tokens count as values). -/
def negNumTail (cs : List Char) : Bool :=
  let ds := cs.takeWhile Char.isDigit
  let rest := cs.dropWhile Char.isDigit
  match rest with
  | [] => ds ≠ []
  | '.' :: fs => fs ≠ [] ∧ fs.all Char.isDigit
  | _ => false

/-- Is a token option-like for these parsers: starts with a dash, is not
the bare `-`, and does not look like a negative number. -/
def isOptLike (t : String) : Bool :=
  match t.data with
  | '-' :: [] => false
  | '-' :: rest => ¬ negNumTail rest
  | _ => false

/-- Find the action registered for an exact flag token. -/
def findAct (acts : List Action) (tok : String) : Option Action :=
  acts.find? (fun a => a.flag = tok)

/-- Greedily take the value tokens following an `nargs` option. -/
def takeVals : List String → List String × List String
  | [] => ([], [])
  | t :: rest =>
    if isOptLike t then ([], t :: rest)
    else
      let p := takeVals rest
      (t :: p.1, p.2)

/-- The value stored by a `type=string_list`, `nargs` option: the list
of per-token conversion results (a Python list of lists), with zero
tokens giving the single empty Python list. -/
def multiVal (vs : List String) : Value :=
  match vs with
  | [] => .vlist []
  | _ => .vnested (vs.map string_list)

/-- `choices=` check after conversion. -/
def choiceOk (a : Action) (v : Value) : Bool :=
  a.choices = [] ||
    (match v with
     | .vstr s => a.choices.contains s
     | _ => false)

/-- Is an action an `nargs` string-list action? -/
def ActKind.isMulti : ActKind → Bool
  | .storeMulti _ => true
  | _ => false

/-- The token scan shared by `parse_args` (`strict = true`) and
`parse_known_args` (`strict = false`).  A strict parse fails on
unrecognized option tokens and stray positionals; a known-args parse
drops them into the ignored extras.  Both fail on a missing or
unconvertible option value.  `fuel` only bounds the recursion; every
step consumes at least one token, so `tokens.length + 1` never runs
out. -/
def runParse (strict : Bool) (acts : List Action) :
    Nat → List String → NS → Except Unit NS
  | 0, _, _ => .error ()
  | _ + 1, [], ns => .ok ns
  | fuel + 1, t :: rest, ns =>
    if isOptLike t then
      match findAct acts t with
      | none => if strict then .error () else runParse strict acts fuel rest ns
      | some a =>
        match a.kind with
        | .flagTrue => runParse strict acts fuel rest (setKey ns a.dest (.vbool true))
        | .flagFalse => runParse strict acts fuel rest (setKey ns a.dest (.vbool false))
        | .store ty =>
          match rest with
          | [] => .error ()
          | v :: rest2 =>
            if isOptLike v then .error ()
            else
              match convert ty v with
              | none => .error ()
              | some val =>
                if choiceOk a val then
                  runParse strict acts fuel rest2 (setKey ns a.dest val)
                else .error ()
        | .storeMulti n =>
          let p := takeVals rest
          if n = Nargs.nplus ∧ p.1 = [] then .error ()
          else runParse strict acts fuel p.2 (setKey ns a.dest (multiVal p.1))
    else
      if strict then .error () else runParse strict acts fuel rest ns

/-- Initialize a namespace with each action's default (first action per
`dest` wins, as in argparse; entries in registration order).  Built in
reverse and flipped at the end, purely so that it evaluates in
quadratic rather than cubic time. -/
def initNS (acts : List Action) : NS :=
  (acts.foldl
    (fun ns a => if (List.lookup a.dest ns).isSome then ns else (a.dest, a.dflt) :: ns)
    []).reverse

/-! ### The option catalog (`JobConfig.__init__`) -/

/-- Every `add_argument` call of `JobConfig.__init__`, in registration
order.  Flags, `dest`s, types, defaults and `choices` are transcribed
from the source; float defaults are the normalized decimal values of
the Python literals. -/
def catalog : List Action := [
  actT "--job.config_file" "job.config_file" (.store .tyStr) .vnone,
  actT "--job.dump_folder" "job.dump_folder" (.store .tyStr) (.vstr "./torchtitan/outputs"),
  actT "--job.description" "job.description" (.store .tyStr) (.vstr "default job"),
  actT "--job.use_for_integration_test" "job.use_for_integration_test" .flagTrue (.vbool false),
  actT "--job.print_args" "job.print_args" .flagTrue (.vbool false),
  actT "--model.name" "model.name" (.store .tyStr) (.vstr "fla"),
  actT "--model.config" "model.config" (.store .tyStr) (.vstr "fla-hub/transformer-1.3B-100B"),
  actT "--model.tokenizer_path" "model.tokenizer_path" (.store .tyStr) (.vstr "fla-hub/transformer-1.3B-100B"),
  actT "--model.converters" "model.converters" (.storeMulti .nplus) (.vlist []),
  actT "--model.print_after_conversion" "model.print_after_conversion" .flagTrue (.vbool false),
  actT "--profiling.enable_profiling" "profiling.enable_profiling" .flagTrue (.vbool false),
  actT "--profiling.save_traces_folder" "profiling.save_traces_folder" (.store .tyStr) (.vstr "profile_traces"),
  actT "--profiling.profile_freq" "profiling.profile_freq" (.store .tyInt) (.vint 10),
  actT "--profiling.enable_memory_snapshot" "profiling.enable_memory_snapshot" .flagTrue (.vbool false),
  actT "--profiling.save_memory_snapshot_folder" "profiling.save_memory_snapshot_folder" (.store .tyStr) (.vstr "memory_snapshot"),
  actT "--optimizer.name" "optimizer.name" (.store .tyStr) (.vstr "AdamW"),
  actT "--optimizer.eps" "optimizer.eps" (.store .tyFloat) (.vfloat 1 (-8)),
  actT "--optimizer.lr" "optimizer.lr" (.store .tyFloat) (.vfloat 8 (-4)),
  actT "--optimizer.beta1" "optimizer.beta1" (.store .tyFloat) (.vfloat 9 (-1)),
  actT "--optimizer.beta2" "optimizer.beta2" (.store .tyFloat) (.vfloat 95 (-2)),
  actT "--optimizer.weight_decay" "optimizer.weight_decay" (.store .tyFloat) (.vfloat 1 (-1)),
  actC "--optimizer.implementation" "optimizer.implementation" (.store .tyStr) (.vstr "fused")
    ["for-loop", "foreach", "fused"],
  actT "--optimizer.early_step_in_backward" "optimizer.early_step_in_backward" .flagTrue (.vbool false),
  actT "--lr_scheduler.warmup_steps" "lr_scheduler.warmup_steps" (.store .tyInt) (.vint 200),
  actT "--lr_scheduler.decay_ratio" "lr_scheduler.decay_ratio" (.store .tyFloat) .vnone,
  actC "--lr_scheduler.decay_type" "lr_scheduler.decay_type" (.store .tyStr) (.vstr "linear")
    ["linear", "sqrt", "cosine"],
  actT "--lr_scheduler.lr_min" "lr_scheduler.lr_min" (.store .tyFloat) (.vfloat 0 0),
  actT "--training.batch_size" "training.batch_size" (.store .tyInt) (.vint 8),
  actT "--training.seq_len" "training.seq_len" (.store .tyInt) (.vint 2048),
  actT "--training.context_len" "training.context_len" (.store .tyInt) (.vint 2048),
  actT "--training.varlen" "training.varlen" .flagTrue (.vbool false),
  actT "--training.gradient_accumulation_steps" "training.gradient_accumulation_steps" (.store .tyInt) (.vint 1),
  actT "--training.steps" "training.steps" (.store .tyInt) (.vint 10000),
  actT "--training.max_norm" "training.max_norm" (.store .tyFloat) (.vfloat 1 0),
  actT "--training.skip_nan_inf" "training.skip_nan_inf" .flagTrue (.vbool false),
  actT "--training.dataset" "training.dataset" (.store .tyStr) (.vstr "HuggingFaceFW/fineweb-edu"),
  actT "--training.dataset_name" "training.dataset_name" (.store .tyStr) .vnone,
  actT "--training.dataset_split" "training.dataset_split" (.store .tyStr) .vnone,
  actT "--training.data_dir" "training.data_dir" (.store .tyStr) .vnone,
  actT "--training.data_files" "training.data_files" (.store .tyStr) .vnone,
  actT "--training.data_probs" "training.data_probs" (.store .tyStr) .vnone,
  actT "--training.streaming" "training.streaming" .flagTrue (.vbool false),
  actT "--training.num_workers" "training.num_workers" (.store .tyInt) (.vint 32),
  actT "--training.prefetch_factor" "training.prefetch_factor" (.store .tyInt) (.vint 2),
  actT "--training.data_parallel_replicate_degree" "training.data_parallel_replicate_degree" (.store .tyInt) (.vint 1),
  actT "--training.data_parallel_shard_degree" "training.data_parallel_shard_degree" (.store .tyInt) (.vint (-1)),
  actT "--training.enable_cpu_offload" "training.enable_cpu_offload" .flagTrue (.vbool false),
  actT "--training.tensor_parallel_degree" "training.tensor_parallel_degree" (.store .tyInt) (.vint 1),
  actT "--training.disable_loss_parallel" "training.disable_loss_parallel" .flagTrue (.vbool false),
  actC "--training.fsdp_reshard_after_forward" "training.fsdp_reshard_after_forward" (.store .tyStr) (.vstr "default")
    ["default", "always", "never"],
  actC "--training.mixed_precision_param" "training.mixed_precision_param" (.store .tyStr) (.vstr "bfloat16")
    ["bfloat16", "float32"],
  actC "--training.mixed_precision_reduce" "training.mixed_precision_reduce" (.store .tyStr) (.vstr "float32")
    ["float32"],
  actT "--training.compile" "training.compile" .flagTrue (.vbool false),
  actT "--training.gc_freq" "training.gc_freq" (.store .tyInt) (.vint 50),
  actT "--training.seed" "training.seed" (.store .tyInt) (.vint 42),
  actT "--training.deterministic" "training.deterministic" .flagTrue (.vbool false),
  actT "--metrics.log_freq" "metrics.log_freq" (.store .tyInt) (.vint 10),
  actT "--metrics.enable_tensorboard" "metrics.enable_tensorboard" .flagTrue (.vbool false),
  actT "--metrics.disable_color_printing" "metrics.disable_color_printing" .flagTrue (.vbool false),
  actT "--metrics.save_tb_folder" "metrics.save_tb_folder" (.store .tyStr) (.vstr "tb"),
  actT "--metrics.save_for_all_ranks" "metrics.save_for_all_ranks" .flagTrue (.vbool false),
  actT "--metrics.enable_wandb" "metrics.enable_wandb" .flagTrue (.vbool false),
  actT "--experimental.enable_async_tensor_parallel" "experimental.enable_async_tensor_parallel" .flagTrue (.vbool false),
  actT "--experimental.pipeline_parallel_degree" "experimental.pipeline_parallel_degree" (.store .tyInt) (.vint 1),
  actT "--experimental.pipeline_parallel_split_points" "experimental.pipeline_parallel_split_points" (.storeMulti .nplus) (.vlist []),
  actT "--experimental.pipeline_parallel_schedule" "experimental.pipeline_parallel_schedule" (.store .tyStr) (.vstr "1F1B"),
  actT "--experimental.pipeline_parallel_schedule_csv" "experimental.pipeline_parallel_schedule_csv" (.store .tyStr) (.vstr ""),
  actT "--experimental.pipeline_parallel_microbatches" "experimental.pipeline_parallel_microbatches" (.store .tyInt) .vnone,
  actT "--experimental.enable_compiled_autograd" "experimental.enable_compiled_autograd" .flagTrue (.vbool false),
  actT "--experimental.context_parallel_degree" "experimental.context_parallel_degree" (.store .tyInt) (.vint 1),
  actT "--experimental.context_parallel_rotate_method" "experimental.context_parallel_rotate_method" (.store .tyStr) (.vstr "allgather"),
  actT "--experimental.custom_model_path" "experimental.custom_model_path" (.store .tyStr) (.vstr ""),
  actT "--checkpoint.enable_checkpoint" "checkpoint.enable_checkpoint" .flagTrue (.vbool false),
  actT "--checkpoint.folder" "checkpoint.folder" (.store .tyStr) (.vstr "checkpoint"),
  actT "--checkpoint.initial_load_path" "checkpoint.initial_load_path" (.store .tyStr) .vnone,
  actT "--checkpoint.initial_load_model_weights_only" "checkpoint.initial_load_model_weights_only" .flagTrue (.vbool true),
  ⟨"--checkpoint.no_initial_load_model_weights_only",
    "checkpoint.initial_load_model_weights_only", .flagFalse, .vbool true, []⟩,
  actT "--checkpoint.interval" "checkpoint.interval" (.store .tyInt) (.vint 500),
  actT "--checkpoint.last_save_model_weights_only" "checkpoint.last_save_model_weights_only" .flagTrue (.vbool false),
  actC "--checkpoint.export_dtype" "checkpoint.export_dtype" (.store .tyStr) (.vstr "float32")
    ["float16", "bfloat16", "float32"],
  actT "--checkpoint.create_seed_checkpoint" "checkpoint.create_seed_checkpoint" .flagTrue (.vbool false),
  actT "--checkpoint.async_mode" "checkpoint.async_mode" (.store .tyStr) (.vstr "disabled"),
  actT "--checkpoint.keep_latest_k" "checkpoint.keep_latest_k" (.store .tyInt) (.vint 0),
  actT "--checkpoint.load_step" "checkpoint.load_step" (.store .tyInt) (.vint (-1)),
  actT "--checkpoint.exclude_from_loading" "checkpoint.exclude_from_loading" (.storeMulti .nstar) (.vlist []),
  actT "--activation_checkpoint.mode" "activation_checkpoint.mode" (.store .tyStr) (.vstr "selective"),
  actT "--activation_checkpoint.selective_ac_option" "activation_checkpoint.selective_ac_option" (.store .tyStr) (.vstr "2"),
  actT "--activation_offload.mode" "activation_offload.mode" (.store .tyStr) (.vstr "none"),
  actT "--float8.enable_fsdp_float8_all_gather" "float8.enable_fsdp_float8_all_gather" .flagTrue (.vbool false),
  actT "--float8.precompute_float8_dynamic_scale_for_fsdp" "float8.precompute_float8_dynamic_scale_for_fsdp" .flagTrue (.vbool false),
  actT "--float8.force_recompute_fp8_weight_in_bwd" "float8.force_recompute_fp8_weight_in_bwd" .flagTrue (.vbool false),
  actC "--float8.recipe_name" "float8.recipe_name" (.store .tyStr) .vnone
    ["tensorwise", "rowwise", "rowwise_with_gw_hp"],
  actT "--comm.init_timeout_seconds" "comm.init_timeout_seconds" (.store .tyInt) (.vint 300),
  actT "--comm.train_timeout_seconds" "comm.train_timeout_seconds" (.store .tyInt) (.vint 100),
  actT "--comm.trace_buf_size" "comm.trace_buf_size" (.store .tyInt) (.vint 20000),
  actT "--memory_estimation.enabled" "memory_estimation.enabled" .flagTrue (.vbool false),
  actT "--memory_estimation.disable_fake_mode" "memory_estimation.disable_fake_mode" .flagTrue (.vbool false),
  actT "--fault_tolerance.enable" "fault_tolerance.enable" .flagTrue (.vbool false),
  actT "--fault_tolerance.replica_id" "fault_tolerance.replica_id" (.store .tyInt) (.vint 0),
  actT "--fault_tolerance.group_size" "fault_tolerance.group_size" (.store .tyInt) (.vint 0),
  actT "--fault_tolerance.min_replica_size" "fault_tolerance.min_replica_size" (.store .tyInt) (.vint 1)]

/-! ### `JobConfig.parse_args` and its stages -/

/-- `_get_string_list_argument_names`: the `dest`s of the parser actions
registered with `type=string_list`. -/
def stringListArgNames : List String :=
  catalog.filterMap (fun a =>
    match a.kind with
    | .storeMulti _ => some a.dest
    | _ => none)

/-- The main parser pass (`self.parser.parse_args(args_list)`), with all
catalog defaults supplied. -/
def parseMain (argv : List String) : Except Unit NS :=
  runParse true catalog (argv.length + 1) argv (initNS catalog)

/-- The Python runtime type of a parsed value, as inferred by the
auxiliary-parser construction (`type(val)`).  Booleans are handled
before this point; a list value would infer Python `list`. -/
def pyTypeOf : Value → ArgTy
  | .vstr _ => .tyStr
  | .vint _ => .tyInt
  | .vfloat _ _ => .tyFloat
  | .vnone => .tyNoneTy
  | .vlist _ => .tyPyList
  | .vnested _ => .tyPyList
  | .vbool _ => .tyStr

/-- The auxiliary-parser option registered for one entry of the fully
parsed namespace: `store_true`/`store_false` mirroring a parsed
boolean, `type=string_list` for string-list destinations, and the
runtime type of the parsed value otherwise. -/
def auxActionFor (p : String × Value) : Action :=
  match p.2 with
  | .vbool b => ⟨"--" ++ p.1, p.1, if b then .flagTrue else .flagFalse, .vnone, []⟩
  | v =>
    if stringListArgNames.contains p.1 then
      ⟨"--" ++ p.1, p.1, .store .tyStrList, .vnone, []⟩
    else
      ⟨"--" ++ p.1, p.1, .store (pyTypeOf v), .vnone, []⟩

/-- The auxiliary parser built from the fully parsed namespace: one
option per `dest`.  Defaults are suppressed
(`argument_default=argparse.SUPPRESS`), so the recorded default is
never consulted. -/
def auxActions (ns : NS) : List Action :=
  ns.map auxActionFor

/-- The command-line-only pass
(`aux_parser.parse_known_args(args_list)`): permissive scan starting
from an empty namespace. -/
def parseAux (ns : NS) (argv : List String) : Except Unit NS :=
  runParse false (auxActions ns) (argv.length + 1) argv []

/-- `_args_to_two_level_dict`: split every `dest` at its first dot and
group into `section -> key -> value`. -/
def toTwoLevel (ns : NS) : TwoLevel :=
  ns.foldl (fun d p => set2 d (splitDot p.1).1 (splitDot p.1).2 p.2) []

/-- Merge one top-level file section into the dict:
`args_dict[k] |= v` (creates the section when absent, as
`args_dict` is a `defaultdict`). -/
def updSection : TwoLevel → String → Section → TwoLevel
  | [], s, kvs => [(s, kvs.foldl (fun m p => setKey m p.1 p.2) [])]
  | (s0, m) :: t, s, kvs =>
    if s0 = s then (s0, kvs.foldl (fun m p => setKey m p.1 p.2) m) :: t
    else (s0, m) :: updSection t s kvs

/-- The file overlay loop: `for k, v in tomllib.load(f).items():
args_dict[k] |= v`. -/
def applyFileOverlay (d : TwoLevel) (file : TwoLevel) : TwoLevel :=
  file.foldl (fun d p => updSection d p.1 p.2) d

/-- Outcome of `open(config_file, "rb")` + `tomllib.load(f)` for one
path: the two caught exception classes (carrying `str(e)`), or the
parsed document (top-level tables as sections). -/
inductive FileRes where
  | missing : String → FileRes
  | badToml : String → FileRes
  | ok : TwoLevel → FileRes

/-- The filesystem-and-TOML environment: a finite table from paths to
outcomes; absent paths raise `FileNotFoundError` as `open` would. -/
abbrev FS := List (String × FileRes)

/-- Look up a path in the environment. -/
def fsRead (fs : FS) (p : String) : FileRes :=
  match List.lookup p fs with
  | some r => r
  | none => .missing ("No such file or directory: " ++ p)

/-- The config-file value the source consults:
`getattr(args, "job.config_file", None)`. -/
def configFileOf (ns : NS) : Option Value :=
  List.lookup "job.config_file" ns

/-- The `if config_file is not None` block of `parse_args`: overlay the
file when one is named, propagating the path and message of a
`FileNotFoundError` / `TOMLDecodeError`.  The config-file value is
`None` or a string by construction (its option has `type=str`). -/
def fileOverlayStage (ns : NS) (d : TwoLevel) (fs : FS) :
    Except (String × String) TwoLevel :=
  match configFileOf ns with
  | some (.vstr p) =>
    match fsRead fs p with
    | .ok t => .ok (applyFileOverlay d t)
    | .missing m => .error (p, m)
    | .badToml m => .error (p, m)
  | _ => .ok d

/-- The string-list normalization loop:
`for n in string_list_argnames: check_string_list_argument(args_dict, n)`. -/
def normalizeStringLists (d : TwoLevel) : TwoLevel :=
  stringListArgNames.foldl check_string_list_argument d

/-- The command-line override loop:
`for section, section_args in cmd_args_dict.items(): ...
args_dict[section][k] = v`. -/
def applyCmdOverrides (d : TwoLevel) (cmdDict : TwoLevel) : TwoLevel :=
  cmdDict.foldl (fun d p => p.2.foldl (fun d q => set2 d p.1 q.1 q.2) d) d

/-- `_validate_config`: `assert self.model.config` and
`assert self.model.tokenizer_path`.  The synthesized section classes
expose exactly the entries of `args_dict`, so the asserts test the
truthiness of the resolved values. -/
def validateOk (d : TwoLevel) : Bool :=
  pyTruthy ((lookup2 d "model" "config").getD .vnone) &&
    pyTruthy ((lookup2 d "model" "tokenizer_path").getD .vnone)

/-- How `parse_args` terminates: an argparse `SystemExit` from either
parser pass, the re-raised config-file exception, or the
`AssertionError` of `_validate_config`. -/
inductive JCErr where
  | argError
  | fileErr : String → JCErr
  | assertFail
deriving DecidableEq

instance : DecidableEq (Except JCErr Unit) := fun a b =>
  match a, b with
  | .ok (), .ok () => isTrue rfl
  | .ok (), .error _ => isFalse (fun h => Except.noConfusion h)
  | .error _, .ok () => isFalse (fun h => Except.noConfusion h)
  | .error e, .error f =>
    if h : e = f then isTrue (by rw [h])
    else isFalse (fun hc => h (Except.error.injEq _ _ ▸ (by injection hc)))

/-- Observable result of one `parse_args` call on a `JobConfig` whose
`self.args_dict` held `state` before the call: the field afterwards,
the `logger.exception` messages emitted, and the control-flow outcome. -/
structure ParseRes where
  state : Option TwoLevel
  logs : List String
  outcome : Except JCErr Unit
deriving DecidableEq

/-- The final two-level mapping assembled from the command-line-only
namespace and the overlaid file document. -/
def finalDict (cmd : NS) (d1 : TwoLevel) : TwoLevel :=
  applyCmdOverrides (normalizeStringLists d1) (toTwoLevel cmd)

/-- `JobConfig.parse_args(args_list)`.  `st` is the prior
`self.args_dict` (`None` before the first call), `fs` the
filesystem/TOML environment. -/
def parse_args (st : Option TwoLevel) (argv : List String) (fs : FS) : ParseRes :=
  match parseMain argv with
  | .error _ => ⟨st, [], .error .argError⟩
  | .ok ns =>
    match parseAux ns argv with
    | .error _ => ⟨st, [], .error .argError⟩
    | .ok cmd =>
      match fileOverlayStage ns (toTwoLevel ns) fs with
      | .error (p, m) =>
        ⟨st,
          ["Error while loading the configuration file: " ++ p,
           "Error details: " ++ m],
          .error (.fileErr m)⟩
      | .ok d1 =>
        let d3 := finalDict cmd d1
        if validateOk d3 then ⟨some d3, [], .ok ()⟩
        else ⟨some d3, [], .error .assertFail⟩

/-- `JobConfig.to_dict`: returns `self.args_dict`. -/
def to_dict (st : Option TwoLevel) : Option TwoLevel :=
  st

/-- `self.args_dict = None` in `JobConfig.__init__`. -/
def initState : Option TwoLevel :=
  none

/-- The resolved value at `section`/`key` visible through `to_dict`
after a `parse_args` call. -/
def resolvedAt (r : ParseRes) (s k : String) : Option Value :=
  match to_dict r.state with
  | some d => lookup2 d s k
  | none => none

/-- Well-formedness of a two-level dict: distinct section names and
distinct keys inside each section.  `tomllib` output always satisfies
this, and every dict the pipeline builds does. -/
def TwoWF (d : TwoLevel) : Prop :=
  (keysOf d).Nodup ∧ ∀ p ∈ d, (keysOf p.2).Nodup

/-- The per-entry effect of string-list normalization on an optional
value. -/
def normStep : Option Value → Option Value
  | some (.vstr s) => some (.vlist (string_list s))
  | o => o

/-! ### Claim-support definitions -/

/-- The destinations of the catalog, i.e. the fully-qualified option
names whose resolved values the configuration exposes. -/
def catalogDests : List String :=
  keysOf (initNS catalog)

/-- The argparse default of a destination. -/
def catalogDefault (d : String) : Value :=
  (List.lookup d (initNS catalog)).getD .vnone

/-- Did the user type any flag registered for destination `d` (its
ordinary flag or a negation flag)? -/
def typedOn (argv : List String) (d : String) : Bool :=
  catalog.any (fun a => a.dest = d && argv.contains a.flag)

/-- The namespace the full parser pass produced (meaningful when that
pass succeeded). -/
def nsOf (argv : List String) : NS :=
  match parseMain argv with
  | .ok ns => ns
  | .error _ => []

/-- The namespace the command-line-only pass produced (meaningful when
both passes succeeded). -/
def cmdOf (argv : List String) : NS :=
  match parseAux (nsOf argv) argv with
  | .ok c => c
  | .error _ => []

/-- The two-level dict after the file overlay (meaningful when the run
reached that stage). -/
def d1Of (argv : List String) (fs : FS) : TwoLevel :=
  match fileOverlayStage (nsOf argv) (toTwoLevel (nsOf argv)) fs with
  | .ok d => d
  | .error _ => []

/-- The value the configuration file supplies for destination `d`, when
a file is named and was parsed. -/
def fileSpec (fs : FS) (ns : NS) (d : String) : Option Value :=
  match configFileOf ns with
  | some (.vstr p) =>
    match fsRead fs p with
    | .ok t => lookup2 t (splitDot d).1 (splitDot d).2
    | _ => none
  | _ => none

/-- How the pipeline normalizes a file-supplied value for destination
`d`: raw strings of string-list options are comma-split, everything
else passes through. -/
def normValueFor (d : String) (w : Value) : Value :=
  if stringListArgNames.contains d then
    match w with
    | .vstr str => .vlist (string_list str)
    | _ => w
  else w

/-- Well-formedness of one file outcome: a parsed document has
duplicate-free sections and keys (as `tomllib` guarantees). -/
def fileWF : FileRes → Prop
  | .ok t => TwoWF t
  | _ => True

instance (d : TwoLevel) : Decidable (TwoWF d) :=
  inferInstanceAs (Decidable ((keysOf d).Nodup ∧ ∀ p ∈ d, (keysOf p.2).Nodup))

instance : DecidablePred fileWF := fun r =>
  match r with
  | .ok t => (inferInstance : Decidable (TwoWF t))
  | .missing _ => isTrue trivial
  | .badToml _ => isTrue trivial

/-- Well-formedness of the filesystem environment. -/
def FSWF (fs : FS) : Prop :=
  ∀ p ∈ fs, fileWF p.2

instance (fs : FS) : Decidable (FSWF fs) :=
  List.decidableBAll _ fs

/-- The catalog destinations, as a literal list (provably equal to
`catalogDests`; used to keep kernel evaluations cheap). -/
def catalogDestsLit : List String := [
  "job.config_file", "job.dump_folder",
  "job.description", "job.use_for_integration_test",
  "job.print_args", "model.name",
  "model.config", "model.tokenizer_path",
  "model.converters", "model.print_after_conversion",
  "profiling.enable_profiling", "profiling.save_traces_folder",
  "profiling.profile_freq", "profiling.enable_memory_snapshot",
  "profiling.save_memory_snapshot_folder", "optimizer.name",
  "optimizer.eps", "optimizer.lr",
  "optimizer.beta1", "optimizer.beta2",
  "optimizer.weight_decay", "optimizer.implementation",
  "optimizer.early_step_in_backward", "lr_scheduler.warmup_steps",
  "lr_scheduler.decay_ratio", "lr_scheduler.decay_type",
  "lr_scheduler.lr_min", "training.batch_size",
  "training.seq_len", "training.context_len",
  "training.varlen", "training.gradient_accumulation_steps",
  "training.steps", "training.max_norm",
  "training.skip_nan_inf", "training.dataset",
  "training.dataset_name", "training.dataset_split",
  "training.data_dir", "training.data_files",
  "training.data_probs", "training.streaming",
  "training.num_workers", "training.prefetch_factor",
  "training.data_parallel_replicate_degree", "training.data_parallel_shard_degree",
  "training.enable_cpu_offload", "training.tensor_parallel_degree",
  "training.disable_loss_parallel", "training.fsdp_reshard_after_forward",
  "training.mixed_precision_param", "training.mixed_precision_reduce",
  "training.compile", "training.gc_freq",
  "training.seed", "training.deterministic",
  "metrics.log_freq", "metrics.enable_tensorboard",
  "metrics.disable_color_printing", "metrics.save_tb_folder",
  "metrics.save_for_all_ranks", "metrics.enable_wandb",
  "experimental.enable_async_tensor_parallel", "experimental.pipeline_parallel_degree",
  "experimental.pipeline_parallel_split_points", "experimental.pipeline_parallel_schedule",
  "experimental.pipeline_parallel_schedule_csv", "experimental.pipeline_parallel_microbatches",
  "experimental.enable_compiled_autograd", "experimental.context_parallel_degree",
  "experimental.context_parallel_rotate_method", "experimental.custom_model_path",
  "checkpoint.enable_checkpoint", "checkpoint.folder",
  "checkpoint.initial_load_path", "checkpoint.initial_load_model_weights_only",
  "checkpoint.interval", "checkpoint.last_save_model_weights_only",
  "checkpoint.export_dtype", "checkpoint.create_seed_checkpoint",
  "checkpoint.async_mode", "checkpoint.keep_latest_k",
  "checkpoint.load_step", "checkpoint.exclude_from_loading",
  "activation_checkpoint.mode", "activation_checkpoint.selective_ac_option",
  "activation_offload.mode", "float8.enable_fsdp_float8_all_gather",
  "float8.precompute_float8_dynamic_scale_for_fsdp", "float8.force_recompute_fp8_weight_in_bwd",
  "float8.recipe_name", "comm.init_timeout_seconds",
  "comm.train_timeout_seconds", "comm.trace_buf_size",
  "memory_estimation.enabled", "memory_estimation.disable_fake_mode",
  "fault_tolerance.enable", "fault_tolerance.replica_id",
  "fault_tolerance.group_size", "fault_tolerance.min_replica_size"]

/-- The string-list argument names, as a literal list. -/
def slNamesLit : List String :=
  ["model.converters", "experimental.pipeline_parallel_split_points",
   "checkpoint.exclude_from_loading"]

/-- One step of the last-boolean-flag scan: a token that names a
boolean flag of destination `d` records its polarity, any other token
leaves the record unchanged. -/
def lbStep (acts : List Action) (d : String) (acc : Option Bool) (t : String) :
    Option Bool :=
  match findAct acts t with
  | some a =>
    if a.dest = d then
      match a.kind with
      | .flagTrue => some true
      | .flagFalse => some false
      | _ => acc
    else acc
  | none => acc

/-- The polarity of the last boolean flag for destination `d` among the
tokens, if any. -/
def lastBoolFlag (acts : List Action) (d : String) (tokens : List String) :
    Option Bool :=
  tokens.foldl (lbStep acts d) none

/-! ### Generic association-map lemmas -/

theorem lookup_cons {α : Type} (k k0 : String) (v0 : α) (t : List (String × α)) :
    List.lookup k ((k0, v0) :: t) = if k = k0 then some v0 else List.lookup k t := by
  by_cases h : k = k0
  · subst h; simp [List.lookup]
  · have hb : (k == k0) = false := beq_eq_false_iff_ne.mpr h
    simp [List.lookup, hb, h]

theorem setKey_cons {α : Type} (k k0 : String) (v v0 : α) (t : List (String × α)) :
    setKey ((k0, v0) :: t) k v =
      if k0 = k then (k0, v) :: t else (k0, v0) :: setKey t k v := by
  by_cases h : k0 = k <;> simp [setKey, h]

theorem keysOf_nil {α : Type} : keysOf ([] : List (String × α)) = [] := rfl

theorem keysOf_cons {α : Type} (k0 : String) (v0 : α) (t : List (String × α)) :
    keysOf ((k0, v0) :: t) = k0 :: keysOf t := rfl

theorem lookup_setKey_self {α : Type} (m : List (String × α)) (k : String) (v : α) :
    List.lookup k (setKey m k v) = some v := by
  induction m with
  | nil => simp [setKey, lookup_cons]
  | cons p t ih =>
    obtain ⟨k0, v0⟩ := p
    by_cases h : k0 = k
    · subst h; simp [setKey_cons, lookup_cons]
    · rw [setKey_cons]
      simp only [h, if_false]
      rw [lookup_cons]
      simp [Ne.symm h, ih]

theorem lookup_setKey_ne {α : Type} (m : List (String × α)) {k k2 : String} (v : α)
    (h : k2 ≠ k) : List.lookup k2 (setKey m k v) = List.lookup k2 m := by
  induction m with
  | nil => simp [setKey, lookup_cons, h]
  | cons p t ih =>
    obtain ⟨k0, v0⟩ := p
    by_cases h0 : k0 = k
    · subst h0; simp [setKey_cons, lookup_cons, h]
    · rw [setKey_cons]
      simp only [h0, if_false]
      rw [lookup_cons, lookup_cons, ih]

theorem mem_keysOf_iff {α : Type} (m : List (String × α)) (k : String) :
    k ∈ keysOf m ↔ ∃ v, (k, v) ∈ m := by
  induction m with
  | nil => simp [keysOf]
  | cons p t ih =>
    obtain ⟨k0, v0⟩ := p
    simp only [keysOf_cons, List.mem_cons, ih]
    constructor
    · rintro (h | ⟨v, hv⟩)
      · exact ⟨v0, Or.inl (by rw [h])⟩
      · exact ⟨v, Or.inr hv⟩
    · rintro ⟨v, h | hv⟩
      · exact Or.inl (congrArg Prod.fst h)
      · exact Or.inr ⟨v, hv⟩

theorem mem_keysOf_setKey {α : Type} (m : List (String × α)) (k k2 : String) (v : α) :
    k2 ∈ keysOf (setKey m k v) ↔ k2 ∈ keysOf m ∨ k2 = k := by
  induction m with
  | nil => simp [setKey, keysOf]
  | cons p t ih =>
    obtain ⟨k0, v0⟩ := p
    by_cases h0 : k0 = k
    · subst h0
      rw [setKey_cons, if_pos rfl, keysOf_cons, keysOf_cons]
      simp only [List.mem_cons]
      tauto
    · rw [setKey_cons]
      simp only [h0, if_false, keysOf_cons, List.mem_cons, ih]
      tauto

theorem keysOf_setKey_mem {α : Type} (m : List (String × α)) (k : String) (v : α)
    (h : k ∈ keysOf m) : keysOf (setKey m k v) = keysOf m := by
  induction m with
  | nil => simp [keysOf] at h
  | cons p t ih =>
    obtain ⟨k0, v0⟩ := p
    by_cases h0 : k0 = k
    · subst h0; simp [setKey_cons, keysOf_cons]
    · rw [setKey_cons]
      simp only [h0, if_false, keysOf_cons]
      rw [keysOf_cons, List.mem_cons] at h
      rcases h with h | h
      · exact absurd h.symm h0
      · rw [ih h]

theorem nodup_keysOf_setKey {α : Type} (m : List (String × α)) (k : String) (v : α)
    (h : (keysOf m).Nodup) : (keysOf (setKey m k v)).Nodup := by
  induction m with
  | nil => simp [setKey, keysOf]
  | cons p t ih =>
    obtain ⟨k0, v0⟩ := p
    rw [keysOf_cons, List.nodup_cons] at h
    by_cases h0 : k0 = k
    · subst h0
      rw [setKey_cons, if_pos rfl, keysOf_cons, List.nodup_cons]
      exact h
    · rw [setKey_cons]
      simp only [h0, if_false]
      rw [keysOf_cons, List.nodup_cons]
      refine ⟨fun hmem => ?_, ih h.2⟩
      rw [mem_keysOf_setKey] at hmem
      rcases hmem with hmem | hmem
      · exact h.1 hmem
      · exact h0 hmem

theorem lookup_isSome_iff_mem {α : Type} (m : List (String × α)) (k : String) :
    (List.lookup k m).isSome = true ↔ k ∈ keysOf m := by
  induction m with
  | nil => simp [List.lookup, keysOf]
  | cons p t ih =>
    obtain ⟨k0, v0⟩ := p
    rw [lookup_cons, keysOf_cons, List.mem_cons]
    by_cases h : k = k0
    · simp [h]
    · simp [h, ih]

/-! ### Two-level dict lemmas -/

theorem lookup2_nil (s k : String) : lookup2 [] s k = none := rfl

theorem lookup2_cons (s0 : String) (m : Section) (t : TwoLevel) (s k : String) :
    lookup2 ((s0, m) :: t) s k =
      if s = s0 then List.lookup k m else lookup2 t s k := by
  unfold lookup2
  rw [lookup_cons]
  by_cases h : s = s0 <;> simp [h]

theorem set2_cons (s0 : String) (m : Section) (t : TwoLevel) (s k : String) (v : Value) :
    set2 ((s0, m) :: t) s k v =
      if s0 = s then (s0, setKey m k v) :: t else (s0, m) :: set2 t s k v := by
  by_cases h : s0 = s <;> simp [set2, h]

theorem lookup2_set2_self (d : TwoLevel) (s k : String) (v : Value) :
    lookup2 (set2 d s k v) s k = some v := by
  induction d with
  | nil => simp [set2, lookup2_cons, lookup_setKey_self]
  | cons p t ih =>
    obtain ⟨s0, m⟩ := p
    by_cases h : s0 = s
    · subst h
      rw [set2_cons, if_pos rfl, lookup2_cons, if_pos rfl, lookup_setKey_self]
    · rw [set2_cons]
      simp only [h, if_false]
      rw [lookup2_cons]
      simp [Ne.symm h, ih]

theorem lookup2_set2_ne (d : TwoLevel) {s k s2 k2 : String} (v : Value)
    (h : ¬(s2 = s ∧ k2 = k)) :
    lookup2 (set2 d s k v) s2 k2 = lookup2 d s2 k2 := by
  induction d with
  | nil =>
    by_cases hs : s2 = s
    · subst hs
      have hk : k2 ≠ k := fun hk => h ⟨rfl, hk⟩
      simp [set2, lookup2_cons, lookup_cons, hk, lookup2_nil]
    · simp [set2, lookup2_cons, hs, lookup2_nil]
  | cons p t ih =>
    obtain ⟨s0, m⟩ := p
    by_cases h0 : s0 = s
    · subst h0
      rw [set2_cons, if_pos rfl, lookup2_cons, lookup2_cons]
      by_cases hs : s2 = s0
      · subst hs
        have hk : k2 ≠ k := fun hk => h ⟨rfl, hk⟩
        simp [lookup_setKey_ne _ _ hk]
      · simp [hs]
    · rw [set2_cons]
      simp only [h0, if_false]
      rw [lookup2_cons, lookup2_cons, ih]

theorem mem_keysOf_set2 (d : TwoLevel) (s k s2 : String) (v : Value) :
    s2 ∈ keysOf (set2 d s k v) ↔ s2 ∈ keysOf d ∨ s2 = s := by
  induction d with
  | nil => simp [set2, keysOf]
  | cons p t ih =>
    obtain ⟨s0, m⟩ := p
    by_cases h0 : s0 = s
    · subst h0
      rw [set2_cons, if_pos rfl, keysOf_cons, keysOf_cons]
      simp only [List.mem_cons]
      tauto
    · rw [set2_cons]
      simp only [h0, if_false, keysOf_cons, List.mem_cons, ih]
      tauto

theorem TwoWF_nil : TwoWF [] := by
  constructor
  · simp [keysOf]
  · intro p hp; cases hp

theorem TwoWF_set2 (d : TwoLevel) (s k : String) (v : Value) (h : TwoWF d) :
    TwoWF (set2 d s k v) := by
  induction d with
  | nil =>
    constructor
    · simp [set2, keysOf]
    · intro p hp
      simp [set2] at hp
      subst hp
      simp [keysOf]
  | cons p t ih =>
    obtain ⟨s0, m⟩ := p
    obtain ⟨hnd, hsec⟩ := h
    rw [keysOf_cons, List.nodup_cons] at hnd
    by_cases h0 : s0 = s
    · subst h0
      rw [set2_cons, if_pos rfl]
      constructor
      · rw [keysOf_cons, List.nodup_cons]
        exact hnd
      · intro q hq
        rcases List.mem_cons.mp hq with hq | hq
        · subst hq
          exact nodup_keysOf_setKey _ _ _ (hsec (s0, m) (List.mem_cons_self _ _))
        · exact hsec q (List.mem_cons_of_mem _ hq)
    · rw [set2_cons]
      simp only [h0, if_false]
      have iht := ih ⟨hnd.2, fun q hq => hsec q (List.mem_cons_of_mem _ hq)⟩
      constructor
      · rw [keysOf_cons, List.nodup_cons]
        refine ⟨fun hmem => ?_, iht.1⟩
        rcases (mem_keysOf_set2 t s k s0 v).mp hmem with h3 | h3
        · exact hnd.1 h3
        · exact h0 h3
      · intro q hq
        rcases List.mem_cons.mp hq with hq | hq
        · subst hq
          exact hsec (s0, m) (List.mem_cons_self _ _)
        · exact iht.2 q hq
/-! ### Scanner lemmas -/

theorem takeVals_append (l : List String) :
    (takeVals l).1 ++ (takeVals l).2 = l := by
  induction l with
  | nil => rfl
  | cons t rest ih =>
    by_cases h : isOptLike t
    · simp [takeVals, h]
    · simp [takeVals, h, ih]

theorem takeVals_mem_snd {l : List String} {x : String}
    (h : x ∈ (takeVals l).2) : x ∈ l := by
  have hx : x ∈ (takeVals l).1 ++ (takeVals l).2 := List.mem_append.mpr (Or.inr h)
  rwa [takeVals_append] at hx

theorem takeVals_fst_not_opt {l : List String} {x : String}
    (h : x ∈ (takeVals l).1) : isOptLike x = false := by
  induction l with
  | nil => cases h
  | cons t rest ih =>
    by_cases ho : isOptLike t
    · simp [takeVals, ho] at h
    · simp only [takeVals, ho, Bool.false_eq_true, if_false] at h
      rcases List.mem_cons.mp h with h | h
      · subst h; simpa using ho
      · exact ih h

theorem findAct_spec {acts : List Action} {t : String} {a : Action}
    (h : findAct acts t = some a) : a ∈ acts ∧ a.flag = t := by
  refine ⟨List.mem_of_find?_eq_some h, ?_⟩
  have := List.find?_some h
  exact of_decide_eq_true this

/-- A destination none of whose flags occur among the tokens keeps its
namespace entry untouched through either parser pass. -/
theorem runParse_untouched (strict : Bool) (acts : List Action) (d : String) :
    ∀ fuel tokens ns ns2,
    runParse strict acts fuel tokens ns = .ok ns2 →
    (∀ a ∈ acts, a.dest = d → a.flag ∉ tokens) →
    List.lookup d ns2 = List.lookup d ns := by
  intro fuel
  induction fuel with
  | zero => intro tokens ns ns2 h _; cases h
  | succ fuel ih =>
    intro tokens ns ns2 h hflag
    match tokens with
    | [] =>
      simp only [runParse] at h
      cases h
      rfl
    | t :: rest =>
      have hrest : ∀ a ∈ acts, a.dest = d → a.flag ∉ rest := by
        intro a ha hd hmem
        exact hflag a ha hd (List.mem_cons_of_mem _ hmem)
      have hsetne : ∀ (a : Action), a ∈ acts → a.flag = t → a.dest ≠ d := by
        intro a ha hf hd
        exact hflag a ha hd (hf ▸ List.mem_cons_self _ _)
      simp only [runParse] at h
      split at h
      · -- option-like token
        split at h
        · -- unknown flag
          split at h
          · cases h
          · rw [ih rest ns ns2 h hrest]
        · -- known action
          rename_i a hfa
          obtain ⟨ha, hf⟩ := findAct_spec hfa
          have hne : a.dest ≠ d := hsetne a ha hf
          split at h
          · rw [ih rest _ ns2 h hrest, lookup_setKey_ne _ _ (Ne.symm hne)]
          · rw [ih rest _ ns2 h hrest, lookup_setKey_ne _ _ (Ne.symm hne)]
          · -- single-value store
            split at h
            · cases h
            · rename_i v rest2
              split at h
              · cases h
              · split at h
                · cases h
                · split at h
                  · have hrest2 : ∀ a ∈ acts, a.dest = d → a.flag ∉ rest2 := by
                      intro a2 ha2 hd2 hmem
                      exact hrest a2 ha2 hd2 (List.mem_cons_of_mem _ hmem)
                    rw [ih rest2 _ ns2 h hrest2, lookup_setKey_ne _ _ (Ne.symm hne)]
                  · cases h
          · -- nargs store
            split at h
            · cases h
            · have hrest2 : ∀ a ∈ acts, a.dest = d → a.flag ∉ (takeVals rest).2 := by
                intro a2 ha2 hd2 hmem
                exact hrest a2 ha2 hd2 (takeVals_mem_snd hmem)
              rw [ih _ _ ns2 h hrest2, lookup_setKey_ne _ _ (Ne.symm hne)]
      · -- positional token
        split at h
        · cases h
        · rw [ih rest ns ns2 h hrest]

/-- When every action's destination already has a namespace entry, a
parser pass preserves the entry list's keys. -/
theorem runParse_keysOf (strict : Bool) (acts : List Action)
    (hacts : ∀ a ∈ acts, a.dest ∈ keysOf (initNS acts)) :
    ∀ fuel tokens ns ns2,
    keysOf ns = keysOf (initNS acts) →
    runParse strict acts fuel tokens ns = .ok ns2 →
    keysOf ns2 = keysOf (initNS acts) := by
  intro fuel
  induction fuel with
  | zero => intro tokens ns ns2 _ h; cases h
  | succ fuel ih =>
    intro tokens ns ns2 hk h
    match tokens with
    | [] =>
      simp only [runParse] at h
      cases h
      exact hk
    | t :: rest =>
      simp only [runParse] at h
      split at h
      · split at h
        · split at h
          · cases h
          · exact ih rest ns ns2 hk h
        · rename_i a hfa
          obtain ⟨ha, _⟩ := findAct_spec hfa
          have hmem : a.dest ∈ keysOf ns := by rw [hk]; exact hacts a ha
          split at h
          · exact ih rest _ ns2 (by rw [keysOf_setKey_mem _ _ _ hmem, hk]) h
          · exact ih rest _ ns2 (by rw [keysOf_setKey_mem _ _ _ hmem, hk]) h
          · split at h
            · cases h
            · split at h
              · cases h
              · split at h
                · cases h
                · split at h
                  · exact ih _ _ ns2 (by rw [keysOf_setKey_mem _ _ _ hmem, hk]) h
                  · cases h
          · split at h
            · cases h
            · exact ih _ _ ns2 (by rw [keysOf_setKey_mem _ _ _ hmem, hk]) h
      · split at h
        · cases h
        · exact ih rest ns ns2 hk h

/-- A parser pass preserves distinctness of namespace keys. -/
theorem runParse_nodup (strict : Bool) (acts : List Action) :
    ∀ fuel tokens ns ns2,
    (keysOf ns).Nodup →
    runParse strict acts fuel tokens ns = .ok ns2 →
    (keysOf ns2).Nodup := by
  intro fuel
  induction fuel with
  | zero => intro tokens ns ns2 _ h; cases h
  | succ fuel ih =>
    intro tokens ns ns2 hnd h
    match tokens with
    | [] =>
      simp only [runParse] at h
      cases h
      exact hnd
    | t :: rest =>
      simp only [runParse] at h
      split at h
      · split at h
        · split at h
          · cases h
          · exact ih rest ns ns2 hnd h
        · split at h
          · exact ih rest _ ns2 (nodup_keysOf_setKey _ _ _ hnd) h
          · exact ih rest _ ns2 (nodup_keysOf_setKey _ _ _ hnd) h
          · split at h
            · cases h
            · split at h
              · cases h
              · split at h
                · cases h
                · split at h
                  · exact ih _ _ ns2 (nodup_keysOf_setKey _ _ _ hnd) h
                  · cases h
          · split at h
            · cases h
            · exact ih _ _ ns2 (nodup_keysOf_setKey _ _ _ hnd) h
      · split at h
        · cases h
        · exact ih rest ns ns2 hnd h

/-- Keys a parser pass produces either were present already or are the
destination of some action. -/
theorem runParse_keys_subset (strict : Bool) (acts : List Action) :
    ∀ fuel tokens ns ns2,
    runParse strict acts fuel tokens ns = .ok ns2 →
    ∀ k, k ∈ keysOf ns2 → k ∈ keysOf ns ∨ ∃ a ∈ acts, a.dest = k := by
  intro fuel
  induction fuel with
  | zero => intro tokens ns ns2 h; cases h
  | succ fuel ih =>
    intro tokens ns ns2 h k
    match tokens with
    | [] =>
      simp only [runParse] at h
      cases h
      exact fun hk => Or.inl hk
    | t :: rest =>
      simp only [runParse] at h
      split at h
      · split at h
        · split at h
          · cases h
          · exact ih rest ns ns2 h k
        · rename_i a hfa
          obtain ⟨ha, _⟩ := findAct_spec hfa
          have after : ∀ (m : NS), (∀ x, x ∈ keysOf m → x ∈ keysOf ns ∨ ∃ b ∈ acts, b.dest = x) →
              ∀ tkns ns2, runParse strict acts fuel tkns m = .ok ns2 →
              k ∈ keysOf ns2 → k ∈ keysOf ns ∨ ∃ b ∈ acts, b.dest = k := by
            intro m hm tkns ns2 hrun hk
            rcases ih tkns m ns2 hrun k hk with hk2 | hk2
            · exact hm k hk2
            · exact Or.inr hk2
          have hset : ∀ (v : Value) (x : String), x ∈ keysOf (setKey ns a.dest v) →
              x ∈ keysOf ns ∨ ∃ b ∈ acts, b.dest = x := by
            intro v x hx
            rcases (mem_keysOf_setKey ns a.dest x v).mp hx with hx | hx
            · exact Or.inl hx
            · exact Or.inr ⟨a, ha, hx.symm⟩
          split at h
          · exact after _ (hset _) _ _ h
          · exact after _ (hset _) _ _ h
          · split at h
            · cases h
            · split at h
              · cases h
              · split at h
                · cases h
                · split at h
                  · exact after _ (hset _) _ _ h
                  · cases h
          · split at h
            · cases h
            · exact after _ (hset _) _ _ h
      · split at h
        · cases h
        · exact ih rest ns ns2 h k

/-- A strict parse fails whenever the tokens contain an option-like
token that matches no registered flag (option-like tokens are never
consumed as values). -/
theorem runParse_unknown_not_ok (acts : List Action) {t : String}
    (hopt : isOptLike t = true) (hunk : findAct acts t = none) :
    ∀ fuel tokens ns ns2, t ∈ tokens →
    runParse true acts fuel tokens ns = .ok ns2 → False := by
  intro fuel
  induction fuel with
  | zero => intro tokens ns ns2 _ h; cases h
  | succ fuel ih =>
    intro tokens ns ns2 hmem h
    match tokens with
    | [] => cases hmem
    | t0 :: rest =>
      by_cases he : t0 = t
      · subst he
        simp only [runParse, hopt, if_true, hunk] at h
        cases h
      · have hm : t ∈ rest := by
          rcases List.mem_cons.mp hmem with h2 | h2
          · exact absurd h2.symm he
          · exact h2
        simp only [runParse] at h
        split at h
        · split at h
          · split at h
            · cases h
            · exact ih rest ns ns2 hm h
          · split at h
            · exact ih rest _ ns2 hm h
            · exact ih rest _ ns2 hm h
            · split at h
              · cases h
              · rename_i v rest2
                split at h
                · cases h
                · split at h
                  · cases h
                  · split at h
                    · have hm2 : t ∈ rest2 := by
                        rcases List.mem_cons.mp hm with h2 | h2
                        · exact absurd (h2 ▸ hopt) (by assumption)
                        · exact h2
                      exact ih rest2 _ ns2 hm2 h
                    · cases h
            · split at h
              · cases h
              · have hm2 : t ∈ (takeVals rest).2 := by
                  have hx : t ∈ (takeVals rest).1 ++ (takeVals rest).2 := by
                    rw [takeVals_append]; exact hm
                  rcases List.mem_append.mp hx with h1 | h2
                  · have := takeVals_fst_not_opt h1
                    rw [hopt] at this
                    cases this
                  · exact h2
                exact ih _ _ ns2 hm2 h
        · split at h
          · cases h
          · exact ih rest ns ns2 hm h

/-- A strict parse fails whenever the tokens contain an option-like
token that matches no registered flag (option-like tokens are never
consumed as values). -/
theorem runParse_unknown_err (acts : List Action) {t : String}
    (hopt : isOptLike t = true) (hunk : findAct acts t = none)
    (fuel : Nat) (tokens : List String) (ns : NS) (hmem : t ∈ tokens) :
    runParse true acts fuel tokens ns = .error () := by
  cases hr : runParse true acts fuel tokens ns with
  | ok ns2 => exact absurd hr (fun hc => runParse_unknown_not_ok acts hopt hunk fuel tokens ns ns2 hmem hc)
  | error u => cases u; rfl

/-- A permissive parse over tokens that match no registered flag
returns the namespace unchanged (unrecognized tokens are dropped into
the ignored extras). -/
theorem runParse_skip_all (acts : List Action) :
    ∀ fuel tokens ns,
    (∀ t ∈ tokens, findAct acts t = none) →
    tokens.length < fuel →
    runParse false acts fuel tokens ns = .ok ns := by
  intro fuel
  induction fuel with
  | zero => intro tokens ns _ hlen; cases hlen
  | succ fuel ih =>
    intro tokens ns hunk hlen
    match tokens with
    | [] => simp only [runParse]
    | t :: rest =>
      have hlen2 : rest.length < fuel := by
        simpa [Nat.succ_lt_succ_iff] using hlen
      have hrest : ∀ t2 ∈ rest, findAct acts t2 = none := by
        intro t2 h2
        exact hunk t2 (List.mem_cons_of_mem _ h2)
      simp only [runParse, hunk t (List.mem_cons_self _ _)]
      split
      · exact ih rest ns hrest hlen2
      · exact ih rest ns hrest hlen2

theorem lookup_setKey_cases {α : Type} (m : List (String × α)) (d k : String) (v : α) :
    List.lookup d (setKey m k v) = if d = k then some v else List.lookup d m := by
  by_cases h : d = k
  · subst h; simp [lookup_setKey_self]
  · simp [h, lookup_setKey_ne _ _ h]

/-- When every action whose destination is a string-list name is an
`nargs` string-list action, a parser pass never stores a raw string at
a string-list destination. -/
theorem runParse_sl_shape (strict : Bool) (acts : List Action)
    (hsl : ∀ a ∈ acts, a.dest ∈ stringListArgNames → a.kind.isMulti = true) :
    ∀ fuel tokens ns ns2,
    (∀ d ∈ stringListArgNames, ∀ v, List.lookup d ns = some v → v.isVStr = false) →
    runParse strict acts fuel tokens ns = .ok ns2 →
    ∀ d ∈ stringListArgNames, ∀ v, List.lookup d ns2 = some v → v.isVStr = false := by
  intro fuel
  induction fuel with
  | zero => intro tokens ns ns2 _ h; cases h
  | succ fuel ih =>
    intro tokens ns ns2 hshape h
    match tokens with
    | [] =>
      simp only [runParse] at h
      cases h
      exact hshape
    | t :: rest =>
      simp only [runParse] at h
      split at h
      · split at h
        · split at h
          · cases h
          · exact ih rest ns ns2 hshape h
        · rename_i a hfa
          obtain ⟨ha, _⟩ := findAct_spec hfa
          have hkeep : ∀ (w : Value), w.isVStr = false →
              ∀ d ∈ stringListArgNames, ∀ v,
              List.lookup d (setKey ns a.dest w) = some v → v.isVStr = false := by
            intro w hw d hd v hv
            rw [lookup_setKey_cases] at hv
            by_cases hdk : d = a.dest
            · rw [if_pos hdk] at hv
              cases hv
              exact hw
            · rw [if_neg hdk] at hv
              exact hshape d hd v hv
          split at h
          · exact ih rest _ ns2 (hkeep (.vbool true) rfl) h
          · exact ih rest _ ns2 (hkeep (.vbool false) rfl) h
          · rename_i ty hkind
            split at h
            · cases h
            · split at h
              · cases h
              · split at h
                · cases h
                · split at h
                  · rename_i w hw _
                    have hker : ∀ d ∈ stringListArgNames, ∀ v,
                        List.lookup d (setKey ns a.dest w) = some v → v.isVStr = false := by
                      intro d hd v hv
                      rw [lookup_setKey_cases] at hv
                      by_cases hdk : d = a.dest
                      · exfalso
                        have hmx := hsl a ha (hdk ▸ hd)
                        rw [hkind] at hmx
                        simp [ActKind.isMulti] at hmx
                      · rw [if_neg hdk] at hv
                        exact hshape d hd v hv
                    exact ih _ _ ns2 hker h
                  · cases h
          · split at h
            · cases h
            · have hmv : (multiVal (takeVals rest).1).isVStr = false := by
                unfold multiVal
                split <;> rfl
              exact ih _ _ ns2 (hkeep _ hmv) h
      · split at h
        · cases h
        · exact ih rest ns ns2 hshape h

/-! ### Stage lookup characterizations -/

theorem lookup_not_mem {α : Type} {m : List (String × α)} {k : String}
    (h : k ∉ keysOf m) : List.lookup k m = none := by
  cases hl : List.lookup k m with
  | none => rfl
  | some v =>
    exfalso
    exact h ((lookup_isSome_iff_mem m k).mp (by rw [hl]; rfl))

theorem lookup_foldl_setKey_not_mem (kvs : Section) (m : Section) {k : String}
    (h : k ∉ keysOf kvs) :
    List.lookup k (kvs.foldl (fun m p => setKey m p.1 p.2) m) = List.lookup k m := by
  induction kvs generalizing m with
  | nil => rfl
  | cons p t ih =>
    obtain ⟨k0, v0⟩ := p
    rw [keysOf_cons] at h
    have hne : k ≠ k0 := fun he => h (List.mem_cons.mpr (Or.inl he))
    have ht : k ∉ keysOf t := fun hm => h (List.mem_cons.mpr (Or.inr hm))
    simp only [List.foldl_cons]
    rw [ih _ ht, lookup_setKey_ne _ _ hne]

theorem lookup_foldl_setKey (kvs : Section) (m : Section) (k : String)
    (hnd : (keysOf kvs).Nodup) :
    List.lookup k (kvs.foldl (fun m p => setKey m p.1 p.2) m) =
      match List.lookup k kvs with
      | some v => some v
      | none => List.lookup k m := by
  induction kvs generalizing m with
  | nil => rfl
  | cons p t ih =>
    obtain ⟨k0, v0⟩ := p
    rw [keysOf_cons, List.nodup_cons] at hnd
    simp only [List.foldl_cons]
    by_cases hk : k = k0
    · subst hk
      rw [lookup_foldl_setKey_not_mem t _ hnd.1, lookup_setKey_self, lookup_cons, if_pos rfl]
    · rw [ih _ hnd.2, lookup_cons]
      simp only [hk, if_false]
      cases List.lookup k t with
      | none => rw [lookup_setKey_ne _ _ hk]
      | some v => rfl

theorem updSection_cons (s0 : String) (m : Section) (t : TwoLevel)
    (s : String) (kvs : Section) :
    updSection ((s0, m) :: t) s kvs =
      if s0 = s then (s0, kvs.foldl (fun m p => setKey m p.1 p.2) m) :: t
      else (s0, m) :: updSection t s kvs := by
  by_cases h : s0 = s <;> simp [updSection, h]

theorem lookup2_updSection (d : TwoLevel) (s : String) (kvs : Section)
    (hnd : (keysOf kvs).Nodup) (s2 k2 : String) :
    lookup2 (updSection d s kvs) s2 k2 =
      if s2 = s then
        (match List.lookup k2 kvs with
         | some v => some v
         | none => lookup2 d s k2)
      else lookup2 d s2 k2 := by
  induction d with
  | nil =>
    rw [show updSection [] s kvs = [(s, kvs.foldl (fun m p => setKey m p.1 p.2) [])] from rfl]
    rw [lookup2_cons]
    by_cases hs : s2 = s
    · subst hs
      rw [if_pos rfl, if_pos rfl, lookup_foldl_setKey _ _ _ hnd, lookup2_nil]
      cases List.lookup k2 kvs <;> rfl
    · rw [if_neg hs, if_neg hs, lookup2_nil]
  | cons p t ih =>
    obtain ⟨s0, m⟩ := p
    rw [updSection_cons]
    by_cases h0 : s0 = s
    · subst h0
      rw [if_pos rfl, lookup2_cons]
      by_cases hs : s2 = s0
      · subst hs
        rw [if_pos rfl, if_pos rfl, lookup_foldl_setKey _ _ _ hnd, lookup2_cons, if_pos rfl]
      · rw [if_neg hs, if_neg hs, lookup2_cons, if_neg hs]
    · rw [if_neg h0, lookup2_cons]
      by_cases hs : s2 = s0
      · rw [if_pos hs]
        have hne : ¬ s2 = s := by
          intro hc
          exact h0 (by rw [← hs]; exact hc)
        rw [if_neg hne, lookup2_cons, if_pos hs]
      · rw [if_neg hs, ih]
        by_cases hss : s2 = s
        · rw [if_pos hss, if_pos hss]
          have hs0 : ¬ s = s0 := by
            intro hc
            exact hs (by rw [hss, hc])
          rw [lookup2_cons, if_neg hs0]
        · rw [if_neg hss, if_neg hss, lookup2_cons, if_neg hs]

theorem lookup2_not_mem {d : TwoLevel} {s : String} (h : s ∉ keysOf d) (k : String) :
    lookup2 d s k = none := by
  unfold lookup2
  rw [lookup_not_mem h]

/-- The file overlay resolves each `(section, key)` to the file's value
when the file specifies it and to the prior value otherwise. -/
theorem lookup2_overlay (d : TwoLevel) (file : TwoLevel) (hwf : TwoWF file)
    (s k : String) :
    lookup2 (applyFileOverlay d file) s k =
      match lookup2 file s k with
      | some v => some v
      | none => lookup2 d s k := by
  induction file generalizing d with
  | nil => rfl
  | cons p t ih =>
    obtain ⟨s0, kvs⟩ := p
    obtain ⟨hnd, hsec⟩ := hwf
    rw [keysOf_cons, List.nodup_cons] at hnd
    have hkvs : (keysOf kvs).Nodup := hsec (s0, kvs) (List.mem_cons_self _ _)
    have hwt : TwoWF t := ⟨hnd.2, fun q hq => hsec q (List.mem_cons_of_mem _ hq)⟩
    show lookup2 (applyFileOverlay (updSection d s0 kvs) t) s k = _
    rw [ih _ hwt, lookup2_cons]
    by_cases hs : s = s0
    · subst hs
      rw [if_pos rfl, lookup2_not_mem hnd.1, lookup2_updSection _ _ _ hkvs, if_pos rfl]
    · simp only [hs, if_false]
      cases hl : lookup2 t s k with
      | some v => rfl
      | none =>
        rw [lookup2_updSection _ _ _ hkvs, if_neg hs]

theorem lookup2_foldl_set2_not_mem (kvs : Section) (d : TwoLevel) (s0 : String)
    {s k : String} (h : ¬ (s = s0 ∧ k ∈ keysOf kvs)) :
    lookup2 (kvs.foldl (fun d q => set2 d s0 q.1 q.2) d) s k = lookup2 d s k := by
  induction kvs generalizing d with
  | nil => rfl
  | cons q t ih
  =>
    obtain ⟨k0, v0⟩ := q
    simp only [List.foldl_cons]
    have hth : ¬ (s = s0 ∧ k ∈ keysOf t) := by
      intro ⟨hs, hk⟩
      exact h ⟨hs, by rw [keysOf_cons]; exact List.mem_cons_of_mem _ hk⟩
    rw [ih _ hth, lookup2_set2_ne]
    intro ⟨hs, hk⟩
    exact h ⟨hs, by rw [keysOf_cons, hk]; exact List.mem_cons_self _ _⟩

theorem lookup2_foldl_set2 (kvs : Section) (d : TwoLevel) (s0 : String)
    (hnd : (keysOf kvs).Nodup) (s k : String) :
    lookup2 (kvs.foldl (fun d q => set2 d s0 q.1 q.2) d) s k =
      if s = s0 then
        (match List.lookup k kvs with
         | some v => some v
         | none => lookup2 d s0 k)
      else lookup2 d s k := by
  induction kvs generalizing d with
  | nil =>
    by_cases hs : s = s0
    · subst hs; simp
    · simp [hs]
  | cons q t ih =>
    obtain ⟨k0, v0⟩ := q
    rw [keysOf_cons, List.nodup_cons] at hnd
    simp only [List.foldl_cons]
    rw [ih _ hnd.2]
    by_cases hs : s = s0
    · subst hs
      rw [if_pos rfl, if_pos rfl, lookup_cons]
      by_cases hk : k = k0
      · subst hk
        rw [if_pos rfl]
        cases hl : List.lookup k t with
        | some v =>
          exfalso
          exact hnd.1 ((lookup_isSome_iff_mem t k).mp (by rw [hl]; rfl))
        | none => rw [lookup2_set2_self]
      · rw [if_neg hk]
        cases List.lookup k t with
        | some v => rfl
        | none => rw [lookup2_set2_ne _ _ (fun hc => hk hc.2)]
    · rw [if_neg hs, if_neg hs, lookup2_set2_ne _ _ (fun hc => hs hc.1)]

/-- The command-line override resolves each `(section, key)` to the
command-line-only value when present and to the prior value
otherwise. -/
theorem lookup2_overrides (d cd : TwoLevel) (hwf : TwoWF cd) (s k : String) :
    lookup2 (applyCmdOverrides d cd) s k =
      match lookup2 cd s k with
      | some v => some v
      | none => lookup2 d s k := by
  induction cd generalizing d with
  | nil => rfl
  | cons p t ih =>
    obtain ⟨s0, kvs⟩ := p
    obtain ⟨hnd, hsec⟩ := hwf
    rw [keysOf_cons, List.nodup_cons] at hnd
    have hkvs : (keysOf kvs).Nodup := hsec (s0, kvs) (List.mem_cons_self _ _)
    have hwt : TwoWF t := ⟨hnd.2, fun q hq => hsec q (List.mem_cons_of_mem _ hq)⟩
    show lookup2 (applyCmdOverrides (kvs.foldl (fun d q => set2 d s0 q.1 q.2) d) t) s k = _
    rw [ih _ hwt, lookup2_cons]
    by_cases hs : s = s0
    · subst hs
      rw [if_pos rfl, lookup2_not_mem hnd.1, lookup2_foldl_set2 _ _ _ hkvs, if_pos rfl]
    · simp only [hs, if_false]
      cases hl : lookup2 t s k with
      | some v => rfl
      | none =>
        rw [lookup2_foldl_set2 _ _ _ hkvs, if_neg hs]

theorem lookup_mem {α : Type} {m : List (String × α)} {k : String} {v : α}
    (h : List.lookup k m = some v) : (k, v) ∈ m := by
  induction m with
  | nil => cases h
  | cons p t ih =>
    obtain ⟨k0, v0⟩ := p
    rw [lookup_cons] at h
    by_cases hk : k = k0
    · rw [if_pos hk] at h
      cases h
      exact List.mem_cons.mpr (Or.inl (by rw [hk]))
    · rw [if_neg hk] at h
      exact List.mem_cons.mpr (Or.inr (ih h))

theorem toTwoLevel_go_not_mem (ns : NS) (acc : TwoLevel) {s k : String}
    (h : ∀ x ∈ keysOf ns, splitDot x ≠ (s, k)) :
    lookup2 (ns.foldl (fun d p => set2 d (splitDot p.1).1 (splitDot p.1).2 p.2) acc) s k =
      lookup2 acc s k := by
  induction ns generalizing acc with
  | nil => rfl
  | cons p t ih =>
    obtain ⟨k0, v0⟩ := p
    simp only [List.foldl_cons]
    have ht : ∀ x ∈ keysOf t, splitDot x ≠ (s, k) := by
      intro x hx
      exact h x (by rw [keysOf_cons]; exact List.mem_cons_of_mem _ hx)
    rw [ih _ ht, lookup2_set2_ne]
    intro ⟨h1, h2⟩
    refine h k0 (by rw [keysOf_cons]; exact List.mem_cons_self _ _) ?_
    have : splitDot k0 = ((splitDot k0).1, (splitDot k0).2) := rfl
    rw [this, ← h1, ← h2]

theorem toTwoLevel_go (d : String) :
    ∀ ns : NS, (keysOf ns).Nodup →
    (∀ x ∈ keysOf ns, splitDot x = splitDot d → x = d) →
    ∀ acc,
    lookup2 (ns.foldl (fun d2 p => set2 d2 (splitDot p.1).1 (splitDot p.1).2 p.2) acc)
        (splitDot d).1 (splitDot d).2 =
      match List.lookup d ns with
      | some v => some v
      | none => lookup2 acc (splitDot d).1 (splitDot d).2 := by
  intro ns
  induction ns with
  | nil => intro _ _ acc; rfl
  | cons p t ih =>
    intro hnd hinj acc
    obtain ⟨k0, v0⟩ := p
    rw [keysOf_cons, List.nodup_cons] at hnd
    have hinjt : ∀ x ∈ keysOf t, splitDot x = splitDot d → x = d := by
      intro x hx
      exact hinj x (by rw [keysOf_cons]; exact List.mem_cons_of_mem _ hx)
    simp only [List.foldl_cons]
    by_cases hk : k0 = d
    · rw [hk]
      have hd_not : d ∉ keysOf t := hk ▸ hnd.1
      have hnot : ∀ x ∈ keysOf t, splitDot x ≠ ((splitDot d).1, (splitDot d).2) := by
        intro x hx hc
        exact hd_not (hinjt x hx hc ▸ hx)
      rw [toTwoLevel_go_not_mem t _ hnot, lookup2_set2_self, lookup_cons, if_pos rfl]
    · have hne : ¬((splitDot d).1 = (splitDot k0).1 ∧ (splitDot d).2 = (splitDot k0).2) := by
        intro ⟨h1, h2⟩
        have hpq : splitDot k0 = splitDot d := by
          rw [Prod.ext_iff]
          exact ⟨h1.symm, h2.symm⟩
        exact hk (hinj k0 (by rw [keysOf_cons]; exact List.mem_cons_self _ _) hpq)
      rw [ih hnd.2 hinjt _, lookup2_set2_ne _ _ hne, lookup_cons,
        if_neg (fun hc => hk hc.symm)]

/-- The two-level grouping of a duplicate-free namespace whose keys
split injectively resolves `splitDot d` to the namespace entry of
`d`. -/
theorem lookup2_toTwoLevel (ns : NS) (d : String)
    (hnd : (keysOf ns).Nodup)
    (hinj : ∀ x ∈ keysOf ns, splitDot x = splitDot d → x = d) :
    lookup2 (toTwoLevel ns) (splitDot d).1 (splitDot d).2 =
      List.lookup d ns := by
  unfold toTwoLevel
  rw [toTwoLevel_go d ns hnd hinj []]
  cases hl : List.lookup d ns with
  | some v => rfl
  | none => rfl

theorem TwoWF_foldl_set2 (ns : NS) :
    ∀ acc, TwoWF acc →
    TwoWF (ns.foldl (fun d2 p => set2 d2 (splitDot p.1).1 (splitDot p.1).2 p.2) acc) := by
  induction ns with
  | nil => intro acc h; exact h
  | cons p t ih =>
    intro acc h
    simp only [List.foldl_cons]
    exact ih _ (TwoWF_set2 _ _ _ _ h)

theorem TwoWF_toTwoLevel (ns : NS) : TwoWF (toTwoLevel ns) :=
  TwoWF_foldl_set2 ns [] TwoWF_nil

theorem normStep_normStep (o : Option Value) : normStep (normStep o) = normStep o := by
  rcases o with _ | v
  · rfl
  · cases v <;> rfl

theorem check_eq (d : TwoLevel) (n : String) :
    check_string_list_argument d n =
      match lookup2 d (splitDot n).1 (splitDot n).2 with
      | some (.vstr str) =>
        set2 d (splitDot n).1 (splitDot n).2 (.vlist (string_list str))
      | _ => d := rfl

theorem check_hit (d : TwoLevel) (n : String) {s k : String}
    (hn : splitDot n = (s, k)) :
    lookup2 (check_string_list_argument d n) s k = normStep (lookup2 d s k) := by
  have h1 : (splitDot n).1 = s := by rw [hn]
  have h2 : (splitDot n).2 = k := by rw [hn]
  rw [check_eq, h1, h2]
  cases hv : lookup2 d s k with
  | none => exact hv
  | some v =>
    cases v with
    | vstr str => rw [lookup2_set2_self]; rfl
    | vint n2 => exact hv
    | vfloat a b => exact hv
    | vbool b => exact hv
    | vlist l => exact hv
    | vnested l => exact hv
    | vnone => exact hv

theorem check_miss (d : TwoLevel) (n : String) {s k : String}
    (hn : splitDot n ≠ (s, k)) :
    lookup2 (check_string_list_argument d n) s k = lookup2 d s k := by
  rw [check_eq]
  cases hv : lookup2 d (splitDot n).1 (splitDot n).2 with
  | none => rfl
  | some v =>
    cases v with
    | vstr str =>
      rw [lookup2_set2_ne]
      intro ⟨hs, hk⟩
      refine hn ?_
      rw [Prod.ext_iff]
      exact ⟨hs.symm, hk.symm⟩
    | vint n2 => rfl
    | vfloat a b => rfl
    | vbool b => rfl
    | vlist l => rfl
    | vnested l => rfl
    | vnone => rfl

/-- The normalization loop transforms exactly the entries named by some
string-list argument name and leaves everything else unchanged. -/
theorem lookup2_norm_fold (names : List String) :
    ∀ (d : TwoLevel) (s k : String),
    lookup2 (names.foldl check_string_list_argument d) s k =
      if names.any (fun n => splitDot n = (s, k)) then
        normStep (lookup2 d s k)
      else lookup2 d s k := by
  induction names with
  | nil => intro d s k; rfl
  | cons n rest ih =>
    intro d s k
    simp only [List.foldl_cons, List.any_cons]
    by_cases hn : splitDot n = (s, k)
    · rw [ih]
      by_cases hrest : rest.any (fun n2 => decide (splitDot n2 = (s, k)))
      · rw [if_pos hrest, check_hit d n hn, normStep_normStep]
        have : (decide (splitDot n = (s, k)) || rest.any fun n2 => decide (splitDot n2 = (s, k))) = true := by
          rw [hrest]
          simp
        rw [if_pos this]
      · rw [if_neg hrest, check_hit d n hn]
        have : (decide (splitDot n = (s, k)) || rest.any fun n2 => decide (splitDot n2 = (s, k))) = true := by
          simp [hn]
        rw [if_pos this]
    · rw [ih, check_miss d n hn]
      have hd : decide (splitDot n = (s, k)) = false := by
        simp [hn]
      simp only [hd, Bool.false_or]

/-! ### Catalog facts -/

theorem catalogDests_eq : catalogDests = catalogDestsLit := by
  decide

theorem slNames_eq : stringListArgNames = slNamesLit := by
  decide

theorem cat_dests_has_acts : ∀ a ∈ catalog, a.dest ∈ keysOf (initNS catalog) := by
  rw [show keysOf (initNS catalog) = catalogDestsLit from catalogDests_eq]
  decide

theorem cat_dests_nodup : (keysOf (initNS catalog)).Nodup := by
  rw [show keysOf (initNS catalog) = catalogDestsLit from catalogDests_eq]
  decide

theorem cat_rejoin : ∀ x ∈ catalogDests, joinDot (splitDot x) = x := by
  rw [catalogDests_eq]
  decide

theorem sl_sub_dests : ∀ n ∈ stringListArgNames, n ∈ catalogDests := by
  rw [slNames_eq, catalogDests_eq]
  decide

theorem cat_sl_multi :
    ∀ a ∈ catalog, a.dest ∈ stringListArgNames → a.kind.isMulti = true := by
  rw [slNames_eq]
  decide

theorem cat_aff_flag :
    ∀ d ∈ catalogDests, ∃ a ∈ catalog, a.dest = d ∧ a.flag = "--" ++ d := by
  rw [catalogDests_eq]
  decide

/-- Keys rejoining from their split halves are split-injective. -/
theorem dests_split_inj {x y : String} (hx : x ∈ catalogDests) (hy : y ∈ catalogDests)
    (h : splitDot x = splitDot y) : x = y := by
  rw [← cat_rejoin x hx, ← cat_rejoin y hy, h]

theorem init_sl_shape :
    ∀ d ∈ stringListArgNames, ∀ v,
    List.lookup d (initNS catalog) = some v → v.isVStr = false := by
  intro d hd v hv
  rw [slNames_eq] at hd
  rw [show slNamesLit =
      ["model.converters", "experimental.pipeline_parallel_split_points",
       "checkpoint.exclude_from_loading"] from rfl] at hd
  have h1 : List.lookup "model.converters" (initNS catalog) =
      some (.vlist []) := by decide
  have h2 : List.lookup "experimental.pipeline_parallel_split_points" (initNS catalog) =
      some (.vlist []) := by decide
  have h3 : List.lookup "checkpoint.exclude_from_loading" (initNS catalog) =
      some (.vlist []) := by decide
  simp only [List.mem_cons, List.not_mem_nil, or_false] at hd
  rcases hd with rfl | rfl | rfl
  · rw [h1] at hv; cases hv; rfl
  · rw [h2] at hv; cases hv; rfl
  · rw [h3] at hv; cases hv; rfl

/-! ### Parse-pass wrapper lemmas -/

theorem auxActionFor_dest (p : String × Value) : (auxActionFor p).dest = p.1 := by
  rcases p with ⟨k, v⟩
  cases v <;> unfold auxActionFor <;> dsimp only <;> (try split) <;> rfl

theorem auxActionFor_flag (p : String × Value) :
    (auxActionFor p).flag = "--" ++ p.1 := by
  rcases p with ⟨k, v⟩
  cases v <;> unfold auxActionFor <;> dsimp only <;> (try split) <;> rfl

theorem auxActions_spec (ns : NS) :
    ∀ a ∈ auxActions ns, a.dest ∈ keysOf ns ∧ a.flag = "--" ++ a.dest := by
  intro a ha
  rcases List.mem_map.mp ha with ⟨p, hp, he⟩
  have hdmem : p.1 ∈ keysOf ns := by
    rcases p with ⟨k, v⟩
    exact (mem_keysOf_iff ns k).mpr ⟨v, hp⟩
  subst he
  rw [auxActionFor_dest, auxActionFor_flag]
  exact ⟨hdmem, rfl⟩

theorem parseMain_keys {argv : List String} {ns : NS}
    (h : parseMain argv = .ok ns) : keysOf ns = catalogDests :=
  runParse_keysOf true catalog cat_dests_has_acts _ argv (initNS catalog) ns rfl h

theorem parseMain_nodup {argv : List String} {ns : NS}
    (h : parseMain argv = .ok ns) : (keysOf ns).Nodup :=
  runParse_nodup true catalog _ argv (initNS catalog) ns cat_dests_nodup h

theorem typedOn_false_elim {argv : List String} {d : String}
    (h : typedOn argv d = false) :
    ∀ a ∈ catalog, a.dest = d → a.flag ∉ argv := by
  intro a ha hd hmem
  have ht : typedOn argv d = true := by
    unfold typedOn
    rw [List.any_eq_true]
    refine ⟨a, ha, ?_⟩
    rw [Bool.and_eq_true]
    exact ⟨decide_eq_true hd, List.elem_eq_true_of_mem hmem⟩
  rw [h] at ht
  cases ht

/-- An option none of whose flags the user typed keeps its argparse
default through the full parse. -/
theorem parseMain_default {argv : List String} {ns : NS} {d : String}
    (h : parseMain argv = .ok ns) (hno : typedOn argv d = false) :
    List.lookup d ns = List.lookup d (initNS catalog) :=
  runParse_untouched true catalog d _ argv (initNS catalog) ns h (typedOn_false_elim hno)

theorem parseMain_sl_shape {argv : List String} {ns : NS}
    (h : parseMain argv = .ok ns) :
    ∀ d ∈ stringListArgNames, ∀ v, List.lookup d ns = some v → v.isVStr = false :=
  runParse_sl_shape true catalog cat_sl_multi _ argv (initNS catalog) ns init_sl_shape h

theorem parseAux_nodup {ns : NS} {argv : List String} {cmd : NS}
    (h : parseAux ns argv = .ok cmd) : (keysOf cmd).Nodup :=
  runParse_nodup false (auxActions ns) _ argv [] cmd (by simp [keysOf]) h

theorem parseAux_keys_sub {ns : NS} {argv : List String} {cmd : NS}
    (h : parseAux ns argv = .ok cmd) : ∀ k ∈ keysOf cmd, k ∈ keysOf ns := by
  intro k hk
  rcases runParse_keys_subset false (auxActions ns) _ argv [] cmd h k hk with hk2 | ⟨a, ha, hd⟩
  · cases hk2
  · exact hd ▸ (auxActions_spec ns a ha).1

/-- An option none of whose flags the user typed is absent from the
command-line-only namespace. -/
theorem parseAux_absent {argv : List String} {ns cmd : NS} {d : String}
    (ha : parseAux ns argv = .ok cmd)
    (hd : d ∈ catalogDests) (hno : typedOn argv d = false) :
    List.lookup d cmd = none := by
  have huntouched : ∀ a ∈ auxActions ns, a.dest = d → a.flag ∉ argv := by
    intro a haux hdest hmem
    obtain ⟨b, hb, hbd, hbf⟩ : ∃ b ∈ catalog, b.dest = d ∧ b.flag = "--" ++ d :=
      cat_aff_flag d hd
    have hflag : a.flag = "--" ++ d := by
      rw [(auxActions_spec ns a haux).2, hdest]
    refine typedOn_false_elim hno b hb hbd ?_
    rw [hbf, ← hflag]
    exact hmem
  rw [runParse_untouched false (auxActions ns) d _ argv [] cmd ha huntouched]
  rfl

/-! ### Pipeline characterization -/

/-- A successful `parse_args` run decomposes into its stages. -/
theorem parse_ok_elim {st : Option TwoLevel} {argv : List String} {fs : FS}
    (h : (parse_args st argv fs).outcome = .ok ()) :
    parseMain argv = .ok (nsOf argv) ∧
    parseAux (nsOf argv) argv = .ok (cmdOf argv) ∧
    fileOverlayStage (nsOf argv) (toTwoLevel (nsOf argv)) fs = .ok (d1Of argv fs) ∧
    validateOk (finalDict (cmdOf argv) (d1Of argv fs)) = true ∧
    (parse_args st argv fs).state = some (finalDict (cmdOf argv) (d1Of argv fs)) := by
  cases hm : parseMain argv with
  | error e =>
    exfalso
    simp only [parse_args, hm] at h
    exact Except.noConfusion h
  | ok ns =>
    have hns : nsOf argv = ns := by unfold nsOf; rw [hm]
    cases ha : parseAux ns argv with
    | error e =>
      exfalso
      simp only [parse_args, hm, ha] at h
      exact Except.noConfusion h
    | ok cmd =>
      have hcmd : cmdOf argv = cmd := by unfold cmdOf; rw [hns, ha]
      cases hfo : fileOverlayStage ns (toTwoLevel ns) fs with
      | error pm =>
        exfalso
        obtain ⟨p, m⟩ := pm
        simp only [parse_args, hm, ha, hfo] at h
        exact Except.noConfusion h
      | ok d1 =>
        have hd1 : d1Of argv fs = d1 := by unfold d1Of; rw [hns, hfo]
        by_cases hval : validateOk (finalDict cmd d1) = true
        · refine ⟨?_, ?_, ?_, ?_, ?_⟩
          · rw [hns]
          · rw [hns, hcmd]; exact ha
          · rw [hns, hd1]; exact hfo
          · rw [hcmd, hd1]; exact hval
          · simp only [parse_args, hm, ha, hfo, hval, if_true]
            rw [hcmd, hd1]
        · exfalso
          simp only [parse_args, hm, ha, hfo] at h
          rw [if_neg hval] at h
          exact Except.noConfusion h

theorem fsRead_ok_mem {fs : FS} {p : String} {t : TwoLevel}
    (h : fsRead fs p = .ok t) : (p, FileRes.ok t) ∈ fs := by
  unfold fsRead at h
  cases hl : List.lookup p fs with
  | none => rw [hl] at h; exact FileRes.noConfusion h
  | some r =>
    rw [hl] at h
    subst h
    exact lookup_mem hl

/-- The dict after the file overlay resolves each catalog destination
to the file-specified value when there is one, else the full-parse
value. -/
theorem d1_lookup {argv : List String} {fs : FS} {ns : NS} {d1 : TwoLevel}
    (hm : parseMain argv = .ok ns)
    (hfo : fileOverlayStage ns (toTwoLevel ns) fs = .ok d1)
    (hwf : ∀ p t, configFileOf ns = some (.vstr p) → fsRead fs p = .ok t → TwoWF t)
    (d : String) (hd : d ∈ catalogDests) :
    lookup2 d1 (splitDot d).1 (splitDot d).2 =
      match fileSpec fs ns d with
      | some w => some w
      | none => List.lookup d ns := by
  have hbase : lookup2 (toTwoLevel ns) (splitDot d).1 (splitDot d).2 =
      List.lookup d ns := by
    refine lookup2_toTwoLevel ns d (parseMain_nodup hm) ?_
    intro x hx he
    refine dests_split_inj ?_ hd he
    rw [← parseMain_keys hm]
    exact hx
  cases hcf : configFileOf ns with
  | none =>
    have he : fileOverlayStage ns (toTwoLevel ns) fs = .ok (toTwoLevel ns) := by
      unfold fileOverlayStage
      rw [hcf]
    rw [he] at hfo
    injection hfo with hfo
    have hfs : fileSpec fs ns d = none := by
      unfold fileSpec
      rw [hcf]
    rw [hfs, ← hfo]
    exact hbase
  | some v =>
    cases v with
    | vstr p =>
      cases hfr : fsRead fs p with
      | ok t =>
        have he : fileOverlayStage ns (toTwoLevel ns) fs =
            .ok (applyFileOverlay (toTwoLevel ns) t) := by
          unfold fileOverlayStage
          rw [hcf]
          show (match fsRead fs p with
            | FileRes.ok t => Except.ok (applyFileOverlay (toTwoLevel ns) t)
            | FileRes.missing m => Except.error (p, m)
            | FileRes.badToml m => Except.error (p, m)) = _
          rw [hfr]
        rw [he] at hfo
        injection hfo with hfo
        have hfs : fileSpec fs ns d =
            lookup2 t (splitDot d).1 (splitDot d).2 := by
          unfold fileSpec
          rw [hcf]
          show (match fsRead fs p with
            | FileRes.ok t => lookup2 t (splitDot d).1 (splitDot d).2
            | _ => none) = _
          rw [hfr]
        have hwt : TwoWF t := hwf p t hcf hfr
        rw [hfs, ← hfo, lookup2_overlay _ t hwt]
        cases lookup2 t (splitDot d).1 (splitDot d).2 with
        | some w => rfl
        | none => exact hbase
      | missing m =>
        exfalso
        have he : fileOverlayStage ns (toTwoLevel ns) fs = .error (p, m) := by
          unfold fileOverlayStage
          rw [hcf]
          show (match fsRead fs p with
            | FileRes.ok t => Except.ok (applyFileOverlay (toTwoLevel ns) t)
            | FileRes.missing m => Except.error (p, m)
            | FileRes.badToml m => Except.error (p, m)) = _
          rw [hfr]
        rw [he] at hfo
        exact Except.noConfusion hfo
      | badToml m =>
        exfalso
        have he : fileOverlayStage ns (toTwoLevel ns) fs = .error (p, m) := by
          unfold fileOverlayStage
          rw [hcf]
          show (match fsRead fs p with
            | FileRes.ok t => Except.ok (applyFileOverlay (toTwoLevel ns) t)
            | FileRes.missing m => Except.error (p, m)
            | FileRes.badToml m => Except.error (p, m)) = _
          rw [hfr]
        rw [he] at hfo
        exact Except.noConfusion hfo
    | vint n =>
      have he : fileOverlayStage ns (toTwoLevel ns) fs = .ok (toTwoLevel ns) := by
        unfold fileOverlayStage
        rw [hcf]
      rw [he] at hfo
      injection hfo with hfo
      have hfs : fileSpec fs ns d = none := by
        unfold fileSpec
        rw [hcf]
      rw [hfs, ← hfo]
      exact hbase
    | vfloat a b =>
      have he : fileOverlayStage ns (toTwoLevel ns) fs = .ok (toTwoLevel ns) := by
        unfold fileOverlayStage
        rw [hcf]
      rw [he] at hfo
      injection hfo with hfo
      have hfs : fileSpec fs ns d = none := by
        unfold fileSpec
        rw [hcf]
      rw [hfs, ← hfo]
      exact hbase
    | vbool b =>
      have he : fileOverlayStage ns (toTwoLevel ns) fs = .ok (toTwoLevel ns) := by
        unfold fileOverlayStage
        rw [hcf]
      rw [he] at hfo
      injection hfo with hfo
      have hfs : fileSpec fs ns d = none := by
        unfold fileSpec
        rw [hcf]
      rw [hfs, ← hfo]
      exact hbase
    | vlist l =>
      have he : fileOverlayStage ns (toTwoLevel ns) fs = .ok (toTwoLevel ns) := by
        unfold fileOverlayStage
        rw [hcf]
      rw [he] at hfo
      injection hfo with hfo
      have hfs : fileSpec fs ns d = none := by
        unfold fileSpec
        rw [hcf]
      rw [hfs, ← hfo]
      exact hbase
    | vnested l =>
      have he : fileOverlayStage ns (toTwoLevel ns) fs = .ok (toTwoLevel ns) := by
        unfold fileOverlayStage
        rw [hcf]
      rw [he] at hfo
      injection hfo with hfo
      have hfs : fileSpec fs ns d = none := by
        unfold fileSpec
        rw [hcf]
      rw [hfs, ← hfo]
      exact hbase
    | vnone =>
      have he : fileOverlayStage ns (toTwoLevel ns) fs = .ok (toTwoLevel ns) := by
        unfold fileOverlayStage
        rw [hcf]
      rw [he] at hfo
      injection hfo with hfo
      have hfs : fileSpec fs ns d = none := by
        unfold fileSpec
        rw [hcf]
      rw [hfs, ← hfo]
      exact hbase

/-- Membership in the string-list names decides the normalization
condition for a catalog destination. -/
theorem sl_any_cond (d : String) (hd : d ∈ catalogDests) :
    (stringListArgNames.any fun n =>
      decide (splitDot n = ((splitDot d).1, (splitDot d).2))) =
      stringListArgNames.contains d := by
  by_cases hmem : d ∈ stringListArgNames
  · have h1 : stringListArgNames.contains d = true := List.elem_eq_true_of_mem hmem
    have h2 : (stringListArgNames.any fun n =>
        decide (splitDot n = ((splitDot d).1, (splitDot d).2))) = true := by
      rw [List.any_eq_true]
      exact ⟨d, hmem, decide_eq_true rfl⟩
    rw [h1, h2]
  · have h1 : stringListArgNames.contains d = false :=
      Bool.eq_false_iff.mpr (fun hc => hmem (List.mem_of_elem_eq_true hc))
    have h2 : (stringListArgNames.any fun n =>
        decide (splitDot n = ((splitDot d).1, (splitDot d).2))) = false := by
      refine Bool.eq_false_iff.mpr (fun hc => ?_)
      rw [List.any_eq_true] at hc
      obtain ⟨n, hn, he⟩ := hc
      have hsp : splitDot n = splitDot d := of_decide_eq_true he
      exact hmem (dests_split_inj (sl_sub_dests n hn) hd hsp ▸ hn)
    rw [h1, h2]

/-- Any well-formed environment satisfies the conditional
well-formedness that the overlay lemmas need. -/
theorem FSWF_imp {fs : FS} (h : FSWF fs) (ns : NS) :
    ∀ p t, configFileOf ns = some (.vstr p) → fsRead fs p = .ok t → TwoWF t :=
  fun _ t _ hfr => h (_, FileRes.ok t) (fsRead_ok_mem hfr)

theorem init_lookup_default {d : String} (hd : d ∈ catalogDests) :
    List.lookup d (initNS catalog) = some (catalogDefault d) := by
  have h := (lookup_isSome_iff_mem (initNS catalog) d).mpr hd
  cases hl : List.lookup d (initNS catalog) with
  | none => rw [hl] at h; cases h
  | some v =>
    unfold catalogDefault
    rw [hl]
    rfl

/-- Master lookup characterization: after a successful `parse_args`,
each catalog destination resolves to the command-line-only value when
the auxiliary pass detected one, else the (normalized) file value when
the file specifies one, else the full-parse value. -/
theorem resolved_lookup {st : Option TwoLevel} {argv : List String} {fs : FS}
    (hwf : ∀ p t, configFileOf (nsOf argv) = some (.vstr p) →
      fsRead fs p = .ok t → TwoWF t)
    (hok : (parse_args st argv fs).outcome = .ok ())
    (d : String) (hd : d ∈ catalogDests) :
    resolvedAt (parse_args st argv fs) (splitDot d).1 (splitDot d).2 =
      match List.lookup d (cmdOf argv) with
      | some v => some v
      | none =>
        match fileSpec fs (nsOf argv) d with
        | some w => some (normValueFor d w)
        | none => List.lookup d (nsOf argv) := by
  obtain ⟨hm, ha, hfo, hval, hstate⟩ := parse_ok_elim hok
  unfold resolvedAt to_dict
  rw [hstate]
  show lookup2 (finalDict (cmdOf argv) (d1Of argv fs)) (splitDot d).1 (splitDot d).2 = _
  unfold finalDict
  rw [lookup2_overrides _ _ (TwoWF_toTwoLevel (cmdOf argv))]
  have hinjc : ∀ x ∈ keysOf (cmdOf argv), splitDot x = splitDot d → x = d := by
    intro x hx he
    refine dests_split_inj ?_ hd he
    rw [← parseMain_keys hm]
    exact parseAux_keys_sub ha x hx
  rw [lookup2_toTwoLevel (cmdOf argv) d (parseAux_nodup ha) hinjc]
  cases hlc : List.lookup d (cmdOf argv) with
  | some v => rfl
  | none =>
    unfold normalizeStringLists
    rw [lookup2_norm_fold stringListArgNames (d1Of argv fs) (splitDot d).1 (splitDot d).2,
      sl_any_cond d hd, d1_lookup hm hfo hwf d hd]
    cases hfs : fileSpec fs (nsOf argv) d with
    | some w =>
      cases hc : stringListArgNames.contains d with
      | true =>
        simp only [normValueFor, hc]
        cases w <;> rfl
      | false =>
        simp only [normValueFor, hc]
        rfl
    | none =>
      cases hc : stringListArgNames.contains d with
      | true =>
        have hdsl : d ∈ stringListArgNames := List.mem_of_elem_eq_true hc
        cases hlns : List.lookup d (nsOf argv) with
        | none => rfl
        | some v =>
          have hshape := parseMain_sl_shape hm d hdsl v hlns
          cases v with
          | vstr s => simp [Value.isVStr] at hshape
          | vint n => rfl
          | vfloat a b => rfl
          | vbool b => rfl
          | vlist l => rfl
          | vnested l => rfl
          | vnone => rfl
      | false => rfl

/-! ### Last-flag-wins machinery (for boolean flags) -/

theorem lbStep_eq_none {acts : List Action} {d : String} {acc : Option Bool}
    {t : String} (h : findAct acts t = none) : lbStep acts d acc t = acc := by
  unfold lbStep
  rw [h]

theorem lbStep_eq_some {acts : List Action} {d : String} {acc : Option Bool}
    {t : String} {a : Action} (h : findAct acts t = some a) :
    lbStep acts d acc t =
      if a.dest = d then
        (match a.kind with
         | ActKind.flagTrue => some true
         | ActKind.flagFalse => some false
         | _ => acc)
      else acc := by
  unfold lbStep
  rw [h]

theorem findAct_none_of_not_opt {acts : List Action} {t : String}
    (hopt : ∀ a ∈ acts, isOptLike a.flag = true) (ht : isOptLike t = false) :
    findAct acts t = none := by
  refine List.find?_eq_none.mpr (fun a ha hc => ?_)
  have hf : a.flag = t := of_decide_eq_true hc
  have h2 := hopt a ha
  rw [hf, ht] at h2
  cases h2

theorem lastBool_go (acts : List Action) (d : String) :
    ∀ (tokens : List String) (acc : Option Bool),
    List.foldl (lbStep acts d) acc tokens =
      match List.foldl (lbStep acts d) none tokens with
      | some b => some b
      | none => acc := by
  intro tokens
  induction tokens with
  | nil => intro acc; rfl
  | cons t rest ih =>
    intro acc
    simp only [List.foldl_cons]
    rw [ih (lbStep acts d acc t), ih (lbStep acts d none t)]
    cases hF : List.foldl (lbStep acts d) none rest with
    | some b => rfl
    | none =>
      cases hfa : findAct acts t with
      | none =>
        simp only [lbStep_eq_none hfa]
      | some a =>
        simp only [lbStep_eq_some hfa]
        by_cases hd : a.dest = d
        · rw [if_pos hd, if_pos hd]
          cases a.kind with
          | flagTrue => rfl
          | flagFalse => rfl
          | store ty => cases acc <;> rfl
          | storeMulti n => cases acc <;> rfl
        · rw [if_neg hd, if_neg hd]

theorem lb_fold_skip (acts : List Action) (d : String) {l : List String}
    (h : ∀ x ∈ l, findAct acts x = none) :
    ∀ acc, List.foldl (lbStep acts d) acc l = acc := by
  induction l with
  | nil => intro acc; rfl
  | cons x rest ih =>
    intro acc
    simp only [List.foldl_cons]
    rw [lbStep_eq_none (h x (List.mem_cons_self _ _))]
    exact ih (fun y hy => h y (List.mem_cons_of_mem _ hy)) acc

theorem lb_mem_some (acts : List Action) (d : String) {t : String} {a : Action}
    (hfa : findAct acts t = some a) (hd : a.dest = d)
    (hk : a.kind = ActKind.flagTrue ∨ a.kind = ActKind.flagFalse) :
    ∀ tokens, t ∈ tokens → ∃ b, lastBoolFlag acts d tokens = some b := by
  intro tokens
  induction tokens with
  | nil => intro h; cases h
  | cons t0 rest ih =>
    intro hmem
    unfold lastBoolFlag
    simp only [List.foldl_cons]
    rw [lastBool_go]
    by_cases he : t0 = t
    · subst he
      have hstep : ∃ b0, lbStep acts d none t0 = some b0 := by
        rw [lbStep_eq_some hfa, if_pos hd]
        rcases hk with hk | hk <;> rw [hk]
        · exact ⟨true, rfl⟩
        · exact ⟨false, rfl⟩
      obtain ⟨b0, hb0⟩ := hstep
      rw [hb0]
      cases List.foldl (lbStep acts d) none rest with
      | some b => exact ⟨b, rfl⟩
      | none => exact ⟨b0, rfl⟩
    · have hm : t ∈ rest := by
        rcases List.mem_cons.mp hmem with h2 | h2
        · exact absurd h2.symm he
        · exact h2
      obtain ⟨b, hb⟩ := ih hm
      unfold lastBoolFlag at hb
      rw [hb]
      exact ⟨b, rfl⟩

theorem lastBool_cons (acts : List Action) (d : String) (t : String)
    (rest : List String) :
    lastBoolFlag acts d (t :: rest) =
      match lastBoolFlag acts d rest with
      | some b => some b
      | none => lbStep acts d none t := by
  unfold lastBoolFlag
  simp only [List.foldl_cons]
  rw [lastBool_go]

theorem lastBool_append_skip (acts : List Action) (d : String)
    {vals : List String} (h : ∀ x ∈ vals, findAct acts x = none)
    (rest2 : List String) :
    lastBoolFlag acts d (vals ++ rest2) = lastBoolFlag acts d rest2 := by
  unfold lastBoolFlag
  rw [List.foldl_append, lb_fold_skip acts d h none]

/-- A destination all of whose actions are plain boolean flags resolves
in the full-parse namespace to the polarity of the last of its flags
among the tokens, or keeps its prior entry when none occurs. -/
theorem runParse_bool_last (strict : Bool) (acts : List Action) (d : String)
    (hk : ∀ a ∈ acts, a.dest = d →
      a.kind = ActKind.flagTrue ∨ a.kind = ActKind.flagFalse)
    (hopt : ∀ a ∈ acts, isOptLike a.flag = true) :
    ∀ fuel tokens ns ns2,
    runParse strict acts fuel tokens ns = .ok ns2 →
    List.lookup d ns2 =
      match lastBoolFlag acts d tokens with
      | some b => some (Value.vbool b)
      | none => List.lookup d ns := by
  intro fuel
  induction fuel with
  | zero => intro tokens ns ns2 h; cases h
  | succ fuel ih =>
    intro tokens ns ns2 h
    match tokens with
    | [] =>
      simp only [runParse] at h
      cases h
      rfl
    | t :: rest =>
      rw [lastBool_cons]
      simp only [runParse] at h
      split at h
      · rename_i hto
        split at h
        · rename_i hfa
          split at h
          · cases h
          · rw [ih rest ns ns2 h, lbStep_eq_none hfa]
            cases lastBoolFlag acts d rest <;> rfl
        · rename_i a hfa
          obtain ⟨ha, _⟩ := findAct_spec hfa
          split at h
          · rename_i hkind
            rw [lbStep_eq_some hfa, hkind, ih rest _ ns2 h]
            by_cases hdd : a.dest = d
            · rw [if_pos hdd]
              cases lastBoolFlag acts d rest with
              | some b => rfl
              | none => rw [hdd, lookup_setKey_self]
            · rw [if_neg hdd]
              cases lastBoolFlag acts d rest with
              | some b => rfl
              | none => rw [lookup_setKey_ne _ _ (Ne.symm hdd)]
          · rename_i hkind
            rw [lbStep_eq_some hfa, hkind, ih rest _ ns2 h]
            by_cases hdd : a.dest = d
            · rw [if_pos hdd]
              cases lastBoolFlag acts d rest with
              | some b => rfl
              | none => rw [hdd, lookup_setKey_self]
            · rw [if_neg hdd]
              cases lastBoolFlag acts d rest with
              | some b => rfl
              | none => rw [lookup_setKey_ne _ _ (Ne.symm hdd)]
          · rename_i ty hkind
            have hdd : a.dest ≠ d := by
              intro hdd
              rcases hk a ha hdd with hc | hc <;> rw [hkind] at hc <;> cases hc
            split at h
            · cases h
            · rename_i v rest2
              split at h
              · cases h
              · rename_i hvopt
                split at h
                · cases h
                · split at h
                  · rw [lbStep_eq_some hfa, if_neg hdd, ih rest2 _ ns2 h]
                    have hvfa : findAct acts v = none :=
                      findAct_none_of_not_opt hopt (Bool.of_not_eq_true hvopt)
                    rw [lastBool_cons, lbStep_eq_none hvfa]
                    cases lastBoolFlag acts d rest2 with
                    | some b => rfl
                    | none => rw [lookup_setKey_ne _ _ (Ne.symm hdd)]
                  · cases h
          · rename_i n hkind
            have hdd : a.dest ≠ d := by
              intro hdd
              rcases hk a ha hdd with hc | hc <;> rw [hkind] at hc <;> cases hc
            split at h
            · cases h
            · rw [lbStep_eq_some hfa, if_neg hdd, ih _ _ ns2 h]
              have hvals : ∀ x ∈ (takeVals rest).1, findAct acts x = none := by
                intro x hx
                exact findAct_none_of_not_opt hopt (takeVals_fst_not_opt hx)
              have hra : lastBoolFlag acts d rest =
                  lastBoolFlag acts d (takeVals rest).2 := by
                conv =>
                  lhs
                  rw [← takeVals_append rest]
                rw [lastBool_append_skip acts d hvals]
              rw [← hra]
              cases lastBoolFlag acts d rest with
              | some b => rfl
              | none => rw [lookup_setKey_ne _ _ (Ne.symm hdd)]
      · rename_i hto
        split at h
        · cases h
        · have hfa : findAct acts t = none :=
            findAct_none_of_not_opt hopt (Bool.of_not_eq_true hto)
          rw [ih rest ns ns2 h, lbStep_eq_none hfa]
          cases lastBoolFlag acts d rest <;> rfl

theorem mem_takeVals_snd {l : List String} {x : String}
    (hx : x ∈ l) (ho : isOptLike x = true) : x ∈ (takeVals l).2 := by
  rw [← takeVals_append l] at hx
  rcases List.mem_append.mp hx with h1 | h2
  · rw [takeVals_fst_not_opt h1] at ho; cases ho
  · exact h2

/-- A destination all of whose actions are boolean flags of one fixed
polarity keeps the value of that polarity once it holds it. -/
theorem runParse_flag_keep (strict : Bool) (acts : List Action) (d : String)
    (b : Bool)
    (hdset : ∀ a ∈ acts, a.dest = d →
      a.kind = (if b then ActKind.flagTrue else ActKind.flagFalse)) :
    ∀ fuel tokens ns ns2,
    runParse strict acts fuel tokens ns = .ok ns2 →
    List.lookup d ns = some (Value.vbool b) →
    List.lookup d ns2 = some (Value.vbool b) := by
  intro fuel
  induction fuel with
  | zero => intro tokens ns ns2 h; cases h
  | succ fuel ih =>
    intro tokens ns ns2 h hns
    match tokens with
    | [] =>
      simp only [runParse] at h
      cases h
      exact hns
    | t :: rest =>
      simp only [runParse] at h
      split at h
      · split at h
        · split at h
          · cases h
          · exact ih rest ns ns2 h hns
        · rename_i a hfa
          obtain ⟨ha, _⟩ := findAct_spec hfa
          split at h
          · rename_i hkind
            refine ih rest _ ns2 h ?_
            by_cases hdd : a.dest = d
            · have hka := hdset a ha hdd
              rw [hkind] at hka
              cases b with
              | true => rw [hdd, lookup_setKey_self]
              | false => exact ActKind.noConfusion hka
            · rw [lookup_setKey_ne _ _ (Ne.symm hdd)]; exact hns
          · rename_i hkind
            refine ih rest _ ns2 h ?_
            by_cases hdd : a.dest = d
            · have hka := hdset a ha hdd
              rw [hkind] at hka
              cases b with
              | true => exact ActKind.noConfusion hka
              | false => rw [hdd, lookup_setKey_self]
            · rw [lookup_setKey_ne _ _ (Ne.symm hdd)]; exact hns
          · rename_i ty hkind
            have hdd : a.dest ≠ d := by
              intro hdd
              have hka := hdset a ha hdd
              rw [hkind] at hka
              cases b <;> exact ActKind.noConfusion hka
            split at h
            · cases h
            · split at h
              · cases h
              · split at h
                · cases h
                · split at h
                  · refine ih _ _ ns2 h ?_
                    rw [lookup_setKey_ne _ _ (Ne.symm hdd)]; exact hns
                  · cases h
          · rename_i n hkind
            have hdd : a.dest ≠ d := by
              intro hdd
              have hka := hdset a ha hdd
              rw [hkind] at hka
              cases b <;> exact ActKind.noConfusion hka
            split at h
            · cases h
            · refine ih _ _ ns2 h ?_
              rw [lookup_setKey_ne _ _ (Ne.symm hdd)]; exact hns
      · split at h
        · cases h
        · exact ih rest ns ns2 h hns

/-- Once a flag token for such a destination occurs among the tokens, a
successful scan ends with the polarity value recorded. -/
theorem runParse_flag_hit (strict : Bool) (acts : List Action) (d flag0 : String)
    (b : Bool)
    (hdset : ∀ a ∈ acts, a.dest = d →
      a.kind = (if b then ActKind.flagTrue else ActKind.flagFalse))
    (hall : ∀ a ∈ acts, a.flag = flag0 → a.dest = d)
    (hex : ∃ a ∈ acts, a.flag = flag0)
    (hfo : isOptLike flag0 = true) :
    ∀ fuel tokens ns ns2,
    runParse strict acts fuel tokens ns = .ok ns2 →
    flag0 ∈ tokens →
    List.lookup d ns2 = some (Value.vbool b) := by
  intro fuel
  induction fuel with
  | zero => intro tokens ns ns2 h; cases h
  | succ fuel ih =>
    intro tokens ns ns2 h hmem
    match tokens with
    | [] => cases hmem
    | t :: rest =>
      by_cases ht : t = flag0
      · subst ht
        simp only [runParse] at h
        split at h
        · split at h
          · rename_i hfa
            exfalso
            obtain ⟨a, ha, haf⟩ := hex
            exact absurd (decide_eq_true haf) (List.find?_eq_none.mp hfa a ha)
          · rename_i a hfa
            obtain ⟨ha, haf⟩ := findAct_spec hfa
            have hda : a.dest = d := hall a ha haf
            have hka := hdset a ha hda
            split at h
            · rename_i hkind
              cases b with
              | false => rw [hkind] at hka; exact ActKind.noConfusion hka
              | true =>
                refine runParse_flag_keep strict acts d true hdset fuel rest _ ns2 h ?_
                rw [hda, lookup_setKey_self]
            · rename_i hkind
              cases b with
              | true => rw [hkind] at hka; exact ActKind.noConfusion hka
              | false =>
                refine runParse_flag_keep strict acts d false hdset fuel rest _ ns2 h ?_
                rw [hda, lookup_setKey_self]
            · rename_i ty hkind
              rw [hkind] at hka
              cases b <;> exact ActKind.noConfusion hka
            · rename_i n hkind
              rw [hkind] at hka
              cases b <;> exact ActKind.noConfusion hka
        · rename_i hto
          exact absurd hfo hto
      · have hmr : flag0 ∈ rest := by
          rcases List.mem_cons.mp hmem with he | h2
          · exact absurd he.symm ht
          · exact h2
        simp only [runParse] at h
        split at h
        · split at h
          · split at h
            · cases h
            · exact ih rest ns ns2 h hmr
          · rename_i a hfa
            split at h
            · exact ih rest _ ns2 h hmr
            · exact ih rest _ ns2 h hmr
            · rename_i ty hkind
              split at h
              · cases h
              · rename_i v rest2
                split at h
                · cases h
                · rename_i hvopt
                  split at h
                  · cases h
                  · split at h
                    · refine ih rest2 _ ns2 h ?_
                      rcases List.mem_cons.mp hmr with he | h2
                      · rw [← he] at hvopt; exact absurd hfo hvopt
                      · exact h2
                    · cases h
            · rename_i n hkind
              split at h
              · cases h
              · exact ih _ _ ns2 h (mem_takeVals_snd hmr hfo)
        · split at h
          · cases h
          · exact ih rest ns ns2 h hmr

theorem str_append_left_cancel {p x y : String} (h : p ++ x = p ++ y) : x = y := by
  have hd : p.data ++ x.data = p.data ++ y.data := by
    have h2 := congrArg String.data h
    simpa using h2
  exact String.ext (List.append_cancel_left hd)

theorem lookup_of_mem_nodup {α : Type} {m : List (String × α)}
    (hnd : (keysOf m).Nodup) {p : String × α} (hp : p ∈ m) :
    List.lookup p.1 m = some p.2 := by
  induction m with
  | nil => cases hp
  | cons q t ih =>
    obtain ⟨k0, v0⟩ := q
    rw [keysOf_cons] at hnd
    rcases List.mem_cons.mp hp with he | hm2
    · subst he
      rw [lookup_cons, if_pos rfl]
    · have hp1 : p.1 ∈ keysOf t := by
        rw [mem_keysOf_iff]
        exact ⟨p.2, hm2⟩
      have hne : p.1 ≠ k0 := by
        intro hc
        exact (List.nodup_cons.mp hnd).1 (hc ▸ hp1)
      rw [lookup_cons, if_neg hne]
      exact ih (List.nodup_cons.mp hnd).2 hm2

/-- The resolved value of a catalog destination the command-line-only
pass recorded is that recorded value, whatever the file said. -/
theorem resolved_cmd {st : Option TwoLevel} {argv : List String} {fs : FS}
    (hok : (parse_args st argv fs).outcome = .ok ())
    (d : String) (hd : d ∈ catalogDests) {v : Value}
    (hlc : List.lookup d (cmdOf argv) = some v) :
    resolvedAt (parse_args st argv fs) (splitDot d).1 (splitDot d).2 = some v := by
  obtain ⟨hm, ha, hfo, hval, hstate⟩ := parse_ok_elim hok
  unfold resolvedAt to_dict
  rw [hstate]
  show lookup2 (finalDict (cmdOf argv) (d1Of argv fs)) (splitDot d).1 (splitDot d).2 = _
  unfold finalDict
  rw [lookup2_overrides _ _ (TwoWF_toTwoLevel (cmdOf argv))]
  have hinjc : ∀ x ∈ keysOf (cmdOf argv), splitDot x = splitDot d → x = d := by
    intro x hx he
    refine dests_split_inj ?_ hd he
    rw [← parseMain_keys hm]
    exact parseAux_keys_sub ha x hx
  rw [lookup2_toTwoLevel (cmdOf argv) d (parseAux_nodup ha) hinjc, hlc]

/-- The command-line-only pass records a boolean destination with the
polarity the full parse gave it once its flag token occurs in `argv`. -/
theorem aux_bool_cmd {argv : List String} {ns cmd : NS} {d : String} {b : Bool}
    (hm : parseMain argv = .ok ns)
    (ha : parseAux ns argv = .ok cmd)
    (hlk : List.lookup d ns = some (.vbool b))
    (hmem : ("--" ++ d) ∈ argv)
    (hfo2 : isOptLike ("--" ++ d) = true) :
    List.lookup d cmd = some (.vbool b) := by
  have hnd : (keysOf ns).Nodup := parseMain_nodup hm
  have hdset : ∀ a ∈ auxActions ns, a.dest = d →
      a.kind = (if b then ActKind.flagTrue else ActKind.flagFalse) := by
    intro a haux hda
    obtain ⟨p, hp, rfl⟩ := List.mem_map.mp haux
    rw [auxActionFor_dest] at hda
    have hl2 : List.lookup p.1 ns = some p.2 := lookup_of_mem_nodup hnd hp
    rw [hda, hlk] at hl2
    have hp2 : p.2 = .vbool b := by injection hl2 with h2; exact h2.symm
    obtain ⟨k, v2⟩ := p
    cases hp2
    rfl
  have hall : ∀ a ∈ auxActions ns, a.flag = ("--" ++ d) → a.dest = d := by
    intro a haux hf
    obtain ⟨p, hp, rfl⟩ := List.mem_map.mp haux
    rw [auxActionFor_flag] at hf
    rw [auxActionFor_dest]
    exact str_append_left_cancel hf
  have hex : ∃ a ∈ auxActions ns, a.flag = ("--" ++ d) := by
    refine ⟨auxActionFor (d, Value.vbool b), List.mem_map_of_mem _ (lookup_mem hlk), ?_⟩
    rw [auxActionFor_flag]
  exact runParse_flag_hit false (auxActions ns) d ("--" ++ d) b hdset hall hex hfo2
    (argv.length + 1) argv [] cmd ha hmem

/-- One scan step at a recognized option token, as an equation. -/
theorem runParse_cons_known {strict : Bool} {acts : List Action} {t : String}
    {rest : List String} {ns : NS} {a : Action}
    (hot : isOptLike t = true) (hfa : findAct acts t = some a) (fuel : Nat) :
    runParse strict acts (fuel + 1) (t :: rest) ns =
      match a.kind with
      | .flagTrue => runParse strict acts fuel rest (setKey ns a.dest (.vbool true))
      | .flagFalse => runParse strict acts fuel rest (setKey ns a.dest (.vbool false))
      | .store ty =>
        match rest with
        | [] => .error ()
        | v :: rest2 =>
          if isOptLike v then .error ()
          else
            match convert ty v with
            | none => .error ()
            | some val =>
              if choiceOk a val then
                runParse strict acts fuel rest2 (setKey ns a.dest val)
              else .error ()
      | .storeMulti n =>
        let p := takeVals rest
        if n = Nargs.nplus ∧ p.1 = [] then .error ()
        else runParse strict acts fuel p.2 (setKey ns a.dest (multiVal p.1)) := by
  simp only [runParse]
  rw [if_pos hot, hfa]

/-- A scan with no tokens left succeeds with the current namespace. -/
theorem runParse_done (strict : Bool) (acts : List Action) (k : Nat) (ns : NS) :
    runParse strict acts (k + 1) [] ns = .ok ns := by
  simp only [runParse]

/-- A two-token scan `[flag, value]` at a single-value option stores the
converted value. -/
theorem runParse_pair_store (strict : Bool) (acts : List Action) (f s : String)
    (ns : NS) (a : Action) (ty : ArgTy) (val : Value) (k : Nat)
    (hof : isOptLike f = true) (hfa : findAct acts f = some a)
    (hk : a.kind = .store ty) (hos : isOptLike s = false)
    (hc : convert ty s = some val) (hch : choiceOk a val = true) :
    runParse strict acts (k + 3) [f, s] ns = .ok (setKey ns a.dest val) := by
  have h1 : runParse strict acts (k + 3) [f, s] ns =
      runParse strict acts (k + 2) [] (setKey ns a.dest val) := by
    rw [show k + 3 = (k + 2) + 1 from rfl, runParse_cons_known hof hfa, hk]
    show (if isOptLike s = true then Except.error ()
      else match convert ty s with
        | none => Except.error ()
        | some v2 =>
          if choiceOk a v2 = true then
            runParse strict acts (k + 2) [] (setKey ns a.dest v2)
          else Except.error ()) = _
    rw [if_neg (by simp [hos]), hc]
    show (if choiceOk a val = true then
        runParse strict acts (k + 2) [] (setKey ns a.dest val)
      else Except.error ()) = _
    rw [if_pos hch]
  rw [h1, show k + 2 = (k + 1) + 1 from rfl, runParse_done]

/-- A two-token scan `[flag, value]` at an `nargs` option stores the
one-element nested list. -/
theorem runParse_pair_multi (strict : Bool) (acts : List Action) (f s : String)
    (ns : NS) (a : Action) (n : Nargs) (k : Nat)
    (hof : isOptLike f = true) (hfa : findAct acts f = some a)
    (hk : a.kind = .storeMulti n) (hos : isOptLike s = false) :
    runParse strict acts (k + 3) [f, s] ns =
      .ok (setKey ns a.dest (Value.vnested [string_list s])) := by
  have ht : takeVals [s] = ([s], []) := by simp [takeVals, hos]
  have h1 : runParse strict acts (k + 3) [f, s] ns =
      runParse strict acts (k + 2) [] (setKey ns a.dest (multiVal [s])) := by
    rw [show k + 3 = (k + 2) + 1 from rfl, runParse_cons_known hof hfa, hk]
    show (if n = Nargs.nplus ∧ (takeVals [s]).1 = [] then Except.error ()
      else runParse strict acts (k + 2) (takeVals [s]).2
        (setKey ns a.dest (multiVal (takeVals [s]).1))) = _
    rw [ht, if_neg (fun hc => List.cons_ne_nil s [] hc.2)]
  rw [h1, show k + 2 = (k + 1) + 1 from rfl, runParse_done]
  rfl

/-- Looking up the flag `--d` among the auxiliary-parser actions finds
exactly the action generated from the namespace entry of `d`. -/
theorem findAct_aux (ns : NS) (d : String) :
    findAct (auxActions ns) ("--" ++ d) =
      (List.lookup d ns).map (fun v => auxActionFor (d, v)) := by
  induction ns with
  | nil => rfl
  | cons p t ih =>
    obtain ⟨k0, v0⟩ := p
    show List.find? _ (auxActionFor (k0, v0) :: auxActions t) = _
    by_cases hd : k0 = d
    · subst hd
      rw [List.find?_cons_of_pos _
        (by rw [auxActionFor_flag]; exact decide_eq_true rfl)]
      rw [lookup_cons, if_pos rfl]
      rfl
    · rw [List.find?_cons_of_neg _ (by
          rw [auxActionFor_flag]
          intro hc
          exact hd (str_append_left_cancel (of_decide_eq_true hc))),
        lookup_cons, if_neg (fun hc => hd hc.symm)]
      exact ih

/-- The full pipeline on the two-token command line `[--d, s]` for an
`nargs` string-list option `d`, with no file named: the option resolves
to the comma-split of the single value token. -/
theorem resolved_single_sl (d : String) (a : Action) (n : Nargs) (s : String)
    (hfa : findAct catalog ("--" ++ d) = some a)
    (hdd : a.dest = d) (hk : a.kind = .storeMulti n)
    (hsl : stringListArgNames.contains d = true)
    (hof : isOptLike ("--" ++ d) = true)
    (hcf : d ≠ "job.config_file")
    (hs : isOptLike s = false) :
    resolvedAt (parse_args none ["--" ++ d, s] []) (splitDot d).1 (splitDot d).2 =
      some (.vlist (string_list s)) := by
  have hm : parseMain ["--" ++ d, s] =
      .ok (setKey (initNS catalog) d (Value.vnested [string_list s])) := by
    show runParse true catalog (0 + 3) ["--" ++ d, s] (initNS catalog) = _
    rw [runParse_pair_multi true catalog ("--" ++ d) s _ a n 0 hof hfa hk hs, hdd]
  have hlk1 : List.lookup d (setKey (initNS catalog) d
      (Value.vnested [string_list s])) = some (Value.vnested [string_list s]) :=
    lookup_setKey_self _ _ _
  have haux_eq : auxActionFor (d, Value.vnested [string_list s]) =
      ⟨"--" ++ d, d, ActKind.store ArgTy.tyStrList, Value.vnone, []⟩ := by
    show (if stringListArgNames.contains d then _ else _) = _
    rw [if_pos hsl]
  have hfa2 : findAct (auxActions (setKey (initNS catalog) d
      (Value.vnested [string_list s]))) ("--" ++ d) =
      some (⟨"--" ++ d, d, ActKind.store ArgTy.tyStrList, Value.vnone, []⟩ :
        Action) := by
    rw [findAct_aux, hlk1]
    show some (auxActionFor (d, Value.vnested [string_list s])) = _
    rw [haux_eq]
  have ha : parseAux (setKey (initNS catalog) d (Value.vnested [string_list s]))
      ["--" ++ d, s] = .ok [(d, Value.vlist (string_list s))] := by
    show runParse false (auxActions (setKey (initNS catalog) d
      (Value.vnested [string_list s]))) (0 + 3) ["--" ++ d, s] [] = _
    rw [runParse_pair_store false _ ("--" ++ d) s []
      (⟨"--" ++ d, d, ActKind.store ArgTy.tyStrList, Value.vnone, []⟩ : Action)
      ArgTy.tyStrList (Value.vlist (string_list s)) 0 hof hfa2 rfl hs rfl rfl]
    rfl
  have hcf0 : configFileOf (setKey (initNS catalog) d
      (Value.vnested [string_list s])) = some Value.vnone := by
    show List.lookup "job.config_file" (setKey (initNS catalog) d _) = _
    rw [lookup_setKey_ne _ _ (Ne.symm hcf)]
    decide
  have hfo : fileOverlayStage
      (setKey (initNS catalog) d (Value.vnested [string_list s]))
      (toTwoLevel (setKey (initNS catalog) d (Value.vnested [string_list s])))
      [] = .ok (toTwoLevel (setKey (initNS catalog) d
        (Value.vnested [string_list s]))) := by
    unfold fileOverlayStage
    rw [hcf0]
  have hstate : (parse_args none ["--" ++ d, s] []).state =
      some (finalDict [(d, Value.vlist (string_list s))]
        (toTwoLevel (setKey (initNS catalog) d
          (Value.vnested [string_list s])))) := by
    cases hv : validateOk (finalDict [(d, Value.vlist (string_list s))]
        (toTwoLevel (setKey (initNS catalog) d
          (Value.vnested [string_list s])))) with
    | true =>
      simp only [parse_args, hm, ha, hfo, hv]
      rfl
    | false =>
      simp only [parse_args, hm, ha, hfo, hv]
      rfl
  unfold resolvedAt to_dict
  rw [hstate]
  show lookup2 (finalDict [(d, Value.vlist (string_list s))]
    (toTwoLevel (setKey (initNS catalog) d (Value.vnested [string_list s]))))
    (splitDot d).1 (splitDot d).2 = _
  unfold finalDict
  rw [lookup2_overrides _ _ (TwoWF_toTwoLevel _)]
  have hl2 : lookup2 (toTwoLevel [(d, Value.vlist (string_list s))])
      (splitDot d).1 (splitDot d).2 = some (Value.vlist (string_list s)) := by
    show lookup2 (set2 [] (splitDot d).1 (splitDot d).2 _)
      (splitDot d).1 (splitDot d).2 = _
    rw [lookup2_set2_self]
  rw [hl2]

/-- A scan whose actions for string-list destinations are all `nargs`
actions never stores a boolean at such a destination. -/
theorem runParse_sl_notbool (strict : Bool) (acts : List Action)
    (hsl : ∀ a ∈ acts, a.dest ∈ stringListArgNames → a.kind.isMulti = true) :
    ∀ fuel tokens ns ns2,
    (∀ d ∈ stringListArgNames, ∀ v, List.lookup d ns = some v → v.isVBool = false) →
    runParse strict acts fuel tokens ns = .ok ns2 →
    ∀ d ∈ stringListArgNames, ∀ v, List.lookup d ns2 = some v → v.isVBool = false := by
  intro fuel
  induction fuel with
  | zero => intro tokens ns ns2 _ h; cases h
  | succ fuel ih =>
    intro tokens ns ns2 hshape h
    match tokens with
    | [] =>
      simp only [runParse] at h
      cases h
      exact hshape
    | t :: rest =>
      simp only [runParse] at h
      split at h
      · split at h
        · split at h
          · cases h
          · exact ih rest ns ns2 hshape h
        · rename_i a hfa
          obtain ⟨ha, _⟩ := findAct_spec hfa
          have hkeep : ∀ (w : Value), w.isVBool = false →
              ∀ d ∈ stringListArgNames, ∀ v,
              List.lookup d (setKey ns a.dest w) = some v → v.isVBool = false := by
            intro w hw d hd v hv
            rw [lookup_setKey_cases] at hv
            by_cases hdk : d = a.dest
            · rw [if_pos hdk] at hv
              cases hv
              exact hw
            · rw [if_neg hdk] at hv
              exact hshape d hd v hv
          have hkeepx : a.kind.isMulti = false →
              ∀ (w : Value), ∀ d ∈ stringListArgNames, ∀ v,
              List.lookup d (setKey ns a.dest w) = some v → v.isVBool = false := by
            intro hnm w d hd v hv
            rw [lookup_setKey_cases] at hv
            by_cases hdk : d = a.dest
            · exfalso
              rw [hsl a ha (hdk ▸ hd)] at hnm
              cases hnm
            · rw [if_neg hdk] at hv
              exact hshape d hd v hv
          split at h
          · rename_i hkind
            exact ih rest _ ns2 (hkeepx (by rw [hkind]; rfl) _) h
          · rename_i hkind
            exact ih rest _ ns2 (hkeepx (by rw [hkind]; rfl) _) h
          · rename_i ty hkind
            split at h
            · cases h
            · split at h
              · cases h
              · split at h
                · cases h
                · split at h
                  · exact ih _ _ ns2 (hkeepx (by rw [hkind]; rfl) _) h
                  · cases h
          · split at h
            · cases h
            · have hmv : (multiVal (takeVals rest).1).isVBool = false := by
                unfold multiVal
                split <;> rfl
              exact ih _ _ ns2 (hkeep _ hmv) h
      · split at h
        · cases h
        · exact ih rest ns ns2 hshape h

theorem init_sl_notbool :
    ∀ d ∈ stringListArgNames, ∀ v,
    List.lookup d (initNS catalog) = some v → v.isVBool = false := by
  intro d hd v hv
  rw [slNames_eq] at hd
  rw [show slNamesLit =
      ["model.converters", "experimental.pipeline_parallel_split_points",
       "checkpoint.exclude_from_loading"] from rfl] at hd
  have h1 : List.lookup "model.converters" (initNS catalog) =
      some (.vlist []) := by decide
  have h2 : List.lookup "experimental.pipeline_parallel_split_points" (initNS catalog) =
      some (.vlist []) := by decide
  have h3 : List.lookup "checkpoint.exclude_from_loading" (initNS catalog) =
      some (.vlist []) := by decide
  simp only [List.mem_cons, List.not_mem_nil, or_false] at hd
  rcases hd with rfl | rfl | rfl
  · rw [h1] at hv; cases hv; rfl
  · rw [h2] at hv; cases hv; rfl
  · rw [h3] at hv; cases hv; rfl

/-- The full parse never leaves a boolean at a string-list
destination. -/
theorem parseMain_sl_notbool {argv : List String} {ns : NS}
    (h : parseMain argv = .ok ns) :
    ∀ d ∈ stringListArgNames, ∀ v, List.lookup d ns = some v → v.isVBool = false :=
  runParse_sl_notbool true catalog cat_sl_multi _ argv (initNS catalog) ns
    init_sl_notbool h

/-- The auxiliary action of a namespace entry whose value is not a
boolean and whose destination is a string-list name: a single-value
`type=string_list` option. -/
theorem auxActionFor_notbool {p : String × Value} (h : p.2.isVBool = false)
    (hc : stringListArgNames.contains p.1 = true) :
    auxActionFor p =
      ⟨"--" ++ p.1, p.1, ActKind.store ArgTy.tyStrList, Value.vnone, []⟩ := by
  obtain ⟨k, v⟩ := p
  cases v <;> first
    | exact Bool.noConfusion h
    | (unfold auxActionFor; dsimp only; rw [if_pos hc])

/-- Greedy value-taking keeps any option-like token and everything
after it in the remainder. -/
theorem takeVals_opt_suffix {f : String} (hf : isOptLike f = true) :
    ∀ (pre rest : List String), ∃ pre2,
      (takeVals (pre ++ f :: rest)).2 = pre2 ++ f :: rest := by
  intro pre
  induction pre with
  | nil =>
    intro rest
    refine ⟨[], ?_⟩
    simp [takeVals, hf]
  | cons t pre ih =>
    intro rest
    by_cases ht : isOptLike t = true
    · refine ⟨t :: pre, ?_⟩
      simp [takeVals, ht]
    · obtain ⟨p2, hp2⟩ := ih rest
      refine ⟨p2, ?_⟩
      have hstep : takeVals ((t :: pre) ++ f :: rest) =
          (t :: (takeVals (pre ++ f :: rest)).1, (takeVals (pre ++ f :: rest)).2) := by
        simp only [List.cons_append, takeVals]
        rw [if_neg ht]
        rfl
      rw [hstep]
      exact hp2

/-- A destination whose only action is a single-value, choice-free
`string_list` option resolves, in a successful scan, to the comma-split
of the token following the last occurrence of its flag. -/
theorem runParse_store_last (strict : Bool) (acts : List Action) (d flag0 : String)
    (hdset : ∀ a ∈ acts, a.dest = d → a.flag = flag0)
    (hall : ∀ a ∈ acts, a.flag = flag0 →
      a.dest = d ∧ a.kind = ActKind.store ArgTy.tyStrList ∧ a.choices = [])
    (hex : ∃ a ∈ acts, a.flag = flag0)
    (hfo : isOptLike flag0 = true) :
    ∀ fuel tokens ns ns2 (s : String) (post : List String),
    runParse strict acts fuel tokens ns = .ok ns2 →
    (∃ pre, tokens = pre ++ flag0 :: s :: post) →
    flag0 ∉ post →
    List.lookup d ns2 = some (.vlist (string_list s)) := by
  intro fuel
  induction fuel with
  | zero => intro tokens ns ns2 s post h; cases h
  | succ fuel ih =>
    intro tokens ns ns2 s post h hdec hnp
    obtain ⟨pre, rfl⟩ := hdec
    cases pre with
    | nil =>
      simp only [List.nil_append] at h
      simp only [runParse] at h
      split at h
      · split at h
        · rename_i hfa
          exfalso
          obtain ⟨a, ha, haf⟩ := hex
          exact absurd (decide_eq_true haf) (List.find?_eq_none.mp hfa a ha)
        · rename_i a hfa
          obtain ⟨ha, haf⟩ := findAct_spec hfa
          obtain ⟨hda, hka, hch⟩ := hall a ha haf
          split at h
          · rename_i hkind
            rw [hka] at hkind
            exact ActKind.noConfusion hkind
          · rename_i hkind
            rw [hka] at hkind
            exact ActKind.noConfusion hkind
          · rename_i ty hkind
            rw [hka] at hkind
            injection hkind with hty
            subst hty
            replace h : (if isOptLike s = true then Except.error ()
              else
                if choiceOk a (Value.vlist (string_list s)) = true then
                  runParse strict acts fuel post
                    (setKey ns a.dest (Value.vlist (string_list s)))
                else Except.error ()) = Except.ok ns2 := h
            split at h
            · cases h
            · have hco : choiceOk a (Value.vlist (string_list s)) = true := by
                unfold choiceOk
                rw [hch]
                rfl
              rw [if_pos hco] at h
              have hnt : ∀ a2 ∈ acts, a2.dest = d → a2.flag ∉ post := by
                intro a2 ha2 hd2
                rw [hdset a2 ha2 hd2]
                exact hnp
              rw [runParse_untouched strict acts d fuel post _ ns2 h hnt, hda,
                lookup_setKey_self]
          · rename_i n hkind
            rw [hka] at hkind
            exact ActKind.noConfusion hkind
      · rename_i hto
        exact absurd hfo hto
    | cons t pre2 =>
      simp only [List.cons_append] at h
      simp only [runParse] at h
      split at h
      · split at h
        · split at h
          · cases h
          · exact ih _ ns ns2 s post h ⟨pre2, rfl⟩ hnp
        · rename_i a hfa
          split at h
          · exact ih _ _ ns2 s post h ⟨pre2, rfl⟩ hnp
          · exact ih _ _ ns2 s post h ⟨pre2, rfl⟩ hnp
          · rename_i ty hkind
            cases pre2 with
            | nil =>
              replace h : (if isOptLike flag0 = true then Except.error ()
                else match convert ty flag0 with
                  | none => Except.error ()
                  | some val =>
                    if choiceOk a val = true then
                      runParse strict acts fuel (s :: post)
                        (setKey ns a.dest val)
                    else Except.error ()) = Except.ok ns2 := h
              rw [if_pos hfo] at h
              cases h
            | cons v pre3 =>
              replace h : (if isOptLike v = true then Except.error ()
                else match convert ty v with
                  | none => Except.error ()
                  | some val =>
                    if choiceOk a val = true then
                      runParse strict acts fuel (pre3 ++ flag0 :: s :: post)
                        (setKey ns a.dest val)
                    else Except.error ()) = Except.ok ns2 := h
              split at h
              · cases h
              · split at h
                · cases h
                · split at h
                  · exact ih _ _ ns2 s post h ⟨pre3, rfl⟩ hnp
                  · cases h
          · rename_i n hkind
            split at h
            · cases h
            · obtain ⟨p4, hp4⟩ := takeVals_opt_suffix hfo pre2 (s :: post)
              exact ih _ _ ns2 s post h ⟨p4, hp4⟩ hnp
      · split at h
        · cases h
        · exact ih _ ns ns2 s post h ⟨pre2, rfl⟩ hnp

/-- The command-line-only pass records a string-list destination with
the comma-split of the token following the last occurrence of its flag
in argv. -/
theorem aux_sl_cmd {ns cmd : NS} {d s : String} {pre post : List String}
    (hd : d ∈ stringListArgNames)
    (hm : parseMain (pre ++ ("--" ++ d) :: s :: post) = .ok ns)
    (ha : parseAux ns (pre ++ ("--" ++ d) :: s :: post) = .ok cmd)
    (hnp : ("--" ++ d) ∉ post)
    (hfo : isOptLike ("--" ++ d) = true) :
    List.lookup d cmd = some (.vlist (string_list s)) := by
  have hcont : stringListArgNames.contains d = true :=
    List.elem_eq_true_of_mem hd
  have hdset : ∀ a ∈ auxActions ns, a.dest = d → a.flag = "--" ++ d := by
    intro a haux hda
    rw [(auxActions_spec ns a haux).2, hda]
  have hnb := parseMain_sl_notbool hm
  have hall : ∀ a ∈ auxActions ns, a.flag = ("--" ++ d) →
      a.dest = d ∧ a.kind = ActKind.store ArgTy.tyStrList ∧ a.choices = [] := by
    intro a haux hf
    obtain ⟨p, hp, rfl⟩ := List.mem_map.mp haux
    rw [auxActionFor_flag] at hf
    have hpd : p.1 = d := str_append_left_cancel hf
    have hlp : List.lookup p.1 ns = some p.2 :=
      lookup_of_mem_nodup (parseMain_nodup hm) hp
    rw [hpd] at hlp
    have hnb2 : p.2.isVBool = false := hnb d hd p.2 hlp
    have hae := auxActionFor_notbool hnb2 (by rw [hpd]; exact hcont)
    rw [hae]
    exact ⟨hpd, rfl, rfl⟩
  have hkeys : d ∈ keysOf ns := by
    rw [parseMain_keys hm]
    exact sl_sub_dests d hd
  have hsome : (List.lookup d ns).isSome = true :=
    (lookup_isSome_iff_mem ns d).mpr hkeys
  obtain ⟨v0, hv0⟩ : ∃ v0, List.lookup d ns = some v0 := by
    cases hl : List.lookup d ns with
    | none => rw [hl] at hsome; cases hsome
    | some v0 => exact ⟨v0, rfl⟩
  have hex : ∃ a ∈ auxActions ns, a.flag = ("--" ++ d) :=
    ⟨auxActionFor (d, v0), List.mem_map_of_mem _ (lookup_mem hv0),
      auxActionFor_flag _⟩
  exact runParse_store_last false (auxActions ns) d ("--" ++ d) hdset hall hex hfo
    ((pre ++ ("--" ++ d) :: s :: post).length + 1)
    (pre ++ ("--" ++ d) :: s :: post) [] cmd s post ha ⟨pre, rfl⟩ hnp

/-! ### Claim C1 -/

/-- C1 (counterexample): the claim "the resolved value equals the
command-line-supplied value if the user actually typed that option in
argv" fails.  With `checkpoint.initial_load_model_weights_only` typed
only through its negation flag (a declared flag for that option, so
`typedOn` holds) the command line supplies `false` (the full parse
stores `false`), the file supplies `true`, the run succeeds — and the
resolved value is the file's `true`, not the command line's `false`. -/
theorem claim_C1_counterexample :
    (typedOn ["--job.config_file", "c.toml",
        "--checkpoint.no_initial_load_model_weights_only"]
        "checkpoint.initial_load_model_weights_only",
      List.lookup "checkpoint.initial_load_model_weights_only"
        (nsOf ["--job.config_file", "c.toml",
          "--checkpoint.no_initial_load_model_weights_only"]),
      fileSpec [("c.toml", .ok [("checkpoint",
          [("initial_load_model_weights_only", .vbool true)])])]
        (nsOf ["--job.config_file", "c.toml",
          "--checkpoint.no_initial_load_model_weights_only"])
        "checkpoint.initial_load_model_weights_only",
      (parse_args none ["--job.config_file", "c.toml",
          "--checkpoint.no_initial_load_model_weights_only"]
        [("c.toml", .ok [("checkpoint",
          [("initial_load_model_weights_only", .vbool true)])])]).outcome,
      resolvedAt (parse_args none ["--job.config_file", "c.toml",
          "--checkpoint.no_initial_load_model_weights_only"]
        [("c.toml", .ok [("checkpoint",
          [("initial_load_model_weights_only", .vbool true)])])])
        "checkpoint" "initial_load_model_weights_only") =
      (true, some (.vbool false), some (.vbool true), .ok (), some (.vbool true))
    ∧ some (Value.vbool true) ≠ some (Value.vbool false) := by
  constructor
  · decide
  · intro h
    cases h

/-- C1 (amended): after a successful `parse_args`, every catalog option
resolves with precedence command line > file > full-parse value, where
"command-line-supplied" means detected by the auxiliary
command-line-only parse (which knows one flag per option, spelled
`--section.key`); the file value is comma-split for string-list
options; and whenever no flag of the option (affirmative or negation)
occurs in argv, the full-parse value is the catalog default — so an
option typed only through its negation flag is not detected as
command-line-supplied and a file value overrides it.  `to_dict`
exposes exactly this mapping (`resolvedAt` reads through `to_dict`). -/
theorem claim_C1_amended {st : Option TwoLevel} {argv : List String} {fs : FS}
    (hwf : FSWF fs) (hok : (parse_args st argv fs).outcome = .ok ()) :
    ∀ d ∈ catalogDests,
      resolvedAt (parse_args st argv fs) (splitDot d).1 (splitDot d).2 =
        (match List.lookup d (cmdOf argv) with
         | some v => some v
         | none =>
           match fileSpec fs (nsOf argv) d with
           | some w => some (normValueFor d w)
           | none => List.lookup d (nsOf argv))
      ∧ (typedOn argv d = false →
          List.lookup d (cmdOf argv) = none ∧
          List.lookup d (nsOf argv) = some (catalogDefault d)) := by
  intro d hd
  obtain ⟨hm, ha, _, _, _⟩ := parse_ok_elim hok
  refine ⟨resolved_lookup (FSWF_imp hwf _) hok d hd, fun hno => ?_⟩
  exact ⟨parseAux_absent ha hd hno,
    by rw [parseMain_default hm hno, init_lookup_default hd]⟩

/-- Witness for the amended C1: a run with a file and one typed option
satisfies the hypotheses; the precedence conclusion follows for every
option. -/
theorem claim_C1_witness :
    FSWF [("c.toml", FileRes.ok [("training", [("batch_size", Value.vint 16)])])] ∧
    (parse_args none ["--job.config_file", "c.toml", "--training.steps", "20"]
      [("c.toml", FileRes.ok [("training", [("batch_size", Value.vint 16)])])]).outcome =
      .ok () ∧
    (∀ d ∈ catalogDests,
      resolvedAt (parse_args none
          ["--job.config_file", "c.toml", "--training.steps", "20"]
          [("c.toml", FileRes.ok [("training", [("batch_size", Value.vint 16)])])])
          (splitDot d).1 (splitDot d).2 =
        (match List.lookup d (cmdOf
            ["--job.config_file", "c.toml", "--training.steps", "20"]) with
         | some v => some v
         | none =>
           match fileSpec
              [("c.toml", FileRes.ok [("training", [("batch_size", Value.vint 16)])])]
              (nsOf ["--job.config_file", "c.toml", "--training.steps", "20"]) d with
           | some w => some (normValueFor d w)
           | none => List.lookup d
              (nsOf ["--job.config_file", "c.toml", "--training.steps", "20"]))
      ∧ (typedOn ["--job.config_file", "c.toml", "--training.steps", "20"] d = false →
          List.lookup d (cmdOf
            ["--job.config_file", "c.toml", "--training.steps", "20"]) = none ∧
          List.lookup d (nsOf
            ["--job.config_file", "c.toml", "--training.steps", "20"]) =
            some (catalogDefault d))) := by
  have hwf : FSWF [("c.toml", FileRes.ok
      [("training", [("batch_size", Value.vint 16)])])] := by decide
  have hok : (parse_args none
      ["--job.config_file", "c.toml", "--training.steps", "20"]
      [("c.toml", FileRes.ok [("training", [("batch_size", Value.vint 16)])])]).outcome =
      .ok () := by decide
  exact ⟨hwf, hok, claim_C1_amended hwf hok⟩

/-! ### Claim C2 -/

/-- C2: when no configuration file is named and none of an option's
flags occur in argv, the option resolves to its catalog default; in
particular a run with an empty command line succeeds and resolves
`training.steps` to `10000`. -/
theorem claim_C2 :
    (∀ (st : Option TwoLevel) (argv : List String) (fs : FS) (d : String),
      d ∈ catalogDests →
      typedOn argv "job.config_file" = false →
      typedOn argv d = false →
      (parse_args st argv fs).outcome = .ok () →
      resolvedAt (parse_args st argv fs) (splitDot d).1 (splitDot d).2 =
        some (catalogDefault d))
    ∧ (parse_args none [] []).outcome = .ok ()
    ∧ resolvedAt (parse_args none [] []) "training" "steps" = some (.vint 10000) := by
  refine ⟨?_, by decide, by decide⟩
  intro st argv fs d hd hnoCfg hno hok
  obtain ⟨hm, ha, _, _, _⟩ := parse_ok_elim hok
  have hcf : configFileOf (nsOf argv) = some .vnone := by
    unfold configFileOf
    rw [parseMain_default hm hnoCfg]
    decide
  have hwfr : ∀ p t, configFileOf (nsOf argv) = some (.vstr p) →
      fsRead fs p = .ok t → TwoWF t := by
    intro p t hcfp _
    rw [hcf] at hcfp
    injection hcfp with hcfp
    exact Value.noConfusion hcfp
  rw [resolved_lookup hwfr hok d hd]
  have hcmd : List.lookup d (cmdOf argv) = none := parseAux_absent ha hd hno
  have hfs : fileSpec fs (nsOf argv) d = none := by
    unfold fileSpec
    rw [hcf]
  rw [hcmd, hfs, parseMain_default hm hno, init_lookup_default hd]

/-- Witness for C2 at an untyped option of a run with no file. -/
theorem claim_C2_witness :
    "training.batch_size" ∈ catalogDests ∧
    typedOn ["--training.steps", "20"] "job.config_file" = false ∧
    typedOn ["--training.steps", "20"] "training.batch_size" = false ∧
    (parse_args none ["--training.steps", "20"] []).outcome = .ok () ∧
    resolvedAt (parse_args none ["--training.steps", "20"] []) "training" "batch_size" =
      some (catalogDefault "training.batch_size") := by
  have h1 : "training.batch_size" ∈ catalogDests := by decide
  have h2 : typedOn ["--training.steps", "20"] "job.config_file" = false := by decide
  have h3 : typedOn ["--training.steps", "20"] "training.batch_size" = false := by decide
  have h4 : (parse_args none ["--training.steps", "20"] []).outcome = .ok () := by decide
  exact ⟨h1, h2, h3, h4, claim_C2.1 none ["--training.steps", "20"] [] _ h1 h2 h3 h4⟩

/-! ### Claim C3 -/

/-- C3: for every option declared with comma-separated-list semantics,
`check_string_list_argument` replaces a raw-string value such as
`"a, b ,c"` by the comma-split, whitespace-stripped, empty-dropping
list `["a", "b", "c"]`, and leaves a value that is not a string (in
particular one that is already a list) unchanged. -/
theorem claim_C3 :
    (∀ (args_dict : TwoLevel) (n : String), n ∈ stringListArgNames →
      (∀ str, lookup2 args_dict (splitDot n).1 (splitDot n).2 = some (.vstr str) →
        lookup2 (check_string_list_argument args_dict n) (splitDot n).1 (splitDot n).2 =
          some (.vlist (string_list str)))
      ∧ (∀ v, v.isVStr = false →
          lookup2 args_dict (splitDot n).1 (splitDot n).2 = some v →
          lookup2 (check_string_list_argument args_dict n) (splitDot n).1 (splitDot n).2 =
            some v))
    ∧ string_list "a, b ,c" = ["a", "b", "c"]
    ∧ string_list "a,, b ," = ["a", "b"] := by
  refine ⟨fun args_dict n _ => ⟨fun str hstr => ?_, fun v hv hlv => ?_⟩, by decide, by decide⟩
  · rw [@check_hit args_dict n (splitDot n).1 (splitDot n).2 rfl, hstr]
    rfl
  · rw [@check_hit args_dict n (splitDot n).1 (splitDot n).2 rfl, hlv]
    cases v with
    | vstr s => simp [Value.isVStr] at hv
    | vint n2 => rfl
    | vfloat a b => rfl
    | vbool b => rfl
    | vlist l => rfl
    | vnested l => rfl
    | vnone => rfl

/-- Witness for C3 at a concrete dict: a raw string is split, a list is
left unchanged. -/
theorem claim_C3_witness :
    "model.converters" ∈ stringListArgNames ∧
    lookup2 [("model", [("converters", Value.vstr "a, b ,c")])] "model" "converters" =
      some (.vstr "a, b ,c") ∧
    lookup2 (check_string_list_argument
      [("model", [("converters", Value.vstr "a, b ,c")])] "model.converters")
      "model" "converters" = some (.vlist ["a", "b", "c"]) ∧
    Value.isVStr (.vlist ["x", "y"]) = false ∧
    lookup2 [("model", [("converters", Value.vlist ["x", "y"])])] "model" "converters" =
      some (.vlist ["x", "y"]) ∧
    lookup2 (check_string_list_argument
      [("model", [("converters", Value.vlist ["x", "y"])])] "model.converters")
      "model" "converters" = some (.vlist ["x", "y"]) := by
  have h1 : "model.converters" ∈ stringListArgNames := by decide
  have h2 : lookup2 [("model", [("converters", Value.vstr "a, b ,c")])] "model" "converters" =
      some (.vstr "a, b ,c") := by decide
  have h4 : Value.isVStr (.vlist ["x", "y"]) = false := rfl
  have h5 : lookup2 [("model", [("converters", Value.vlist ["x", "y"])])] "model" "converters" =
      some (.vlist ["x", "y"]) := by decide
  refine ⟨h1, h2, ?_, h4, h5, ?_⟩
  · have h3 := ((claim_C3.1 [("model", [("converters", Value.vstr "a, b ,c")])]
      "model.converters" h1).1 "a, b ,c" h2)
    rw [show some (Value.vlist ["a", "b", "c"]) =
      some (Value.vlist (string_list "a, b ,c")) from by decide]
    exact h3
  · exact (claim_C3.1 [("model", [("converters", Value.vlist ["x", "y"])])]
      "model.converters" h1).2 (.vlist ["x", "y"]) h4 h5

/-! ### Claim C4 -/

/-- C4: for the boolean option `checkpoint.initial_load_model_weights_only`
with negation flag `--checkpoint.no_initial_load_model_weights_only`,
whenever its affirmative flag occurs in argv (in particular when both
flags do) the resolved value is the polarity of the last of its flags
in argv order; concretely, negation after affirmative resolves to
`false` and affirmative after negation resolves to `true`. -/
theorem claim_C4 :
    (∀ (st : Option TwoLevel) (argv : List String) (fs : FS),
      (parse_args st argv fs).outcome = .ok () →
      "--checkpoint.initial_load_model_weights_only" ∈ argv →
      "--checkpoint.no_initial_load_model_weights_only" ∈ argv →
      resolvedAt (parse_args st argv fs)
          "checkpoint" "initial_load_model_weights_only" =
        (lastBoolFlag catalog
          "checkpoint.initial_load_model_weights_only" argv).map Value.vbool)
    ∧ ((parse_args none ["--checkpoint.initial_load_model_weights_only",
          "--checkpoint.no_initial_load_model_weights_only"] []).outcome = .ok ()
       ∧ resolvedAt (parse_args none
            ["--checkpoint.initial_load_model_weights_only",
             "--checkpoint.no_initial_load_model_weights_only"] [])
            "checkpoint" "initial_load_model_weights_only" = some (.vbool false))
    ∧ ((parse_args none ["--checkpoint.no_initial_load_model_weights_only",
          "--checkpoint.initial_load_model_weights_only"] []).outcome = .ok ()
       ∧ resolvedAt (parse_args none
            ["--checkpoint.no_initial_load_model_weights_only",
             "--checkpoint.initial_load_model_weights_only"] [])
            "checkpoint" "initial_load_model_weights_only" = some (.vbool true)) := by
  refine ⟨?_, ⟨by decide, by decide⟩, ⟨by decide, by decide⟩⟩
  intro st argv fs hok hafm hnfm
  obtain ⟨hm, ha, _, _, _⟩ := parse_ok_elim hok
  have hkcat : ∀ a ∈ catalog,
      a.dest = "checkpoint.initial_load_model_weights_only" →
      a.kind = ActKind.flagTrue ∨ a.kind = ActKind.flagFalse := by decide
  have hoptcat : ∀ a ∈ catalog, isOptLike a.flag = true := by decide
  have hfaff : findAct catalog "--checkpoint.initial_load_model_weights_only" =
      some ⟨"--checkpoint.initial_load_model_weights_only",
        "checkpoint.initial_load_model_weights_only", ActKind.flagTrue,
        Value.vbool true, []⟩ := by decide
  obtain ⟨bb, hlb⟩ := lb_mem_some catalog
    "checkpoint.initial_load_model_weights_only" hfaff rfl (Or.inl rfl) argv hafm
  have h2 : runParse true catalog (argv.length + 1) argv (initNS catalog) =
      .ok (nsOf argv) := hm
  have hmain0 := runParse_bool_last true catalog
    "checkpoint.initial_load_model_weights_only" hkcat hoptcat
    (argv.length + 1) argv (initNS catalog) (nsOf argv) h2
  rw [hlb] at hmain0
  have hAF : ("--" ++ "checkpoint.initial_load_model_weights_only") =
      "--checkpoint.initial_load_model_weights_only" := by decide
  have hcmd : List.lookup "checkpoint.initial_load_model_weights_only"
      (cmdOf argv) = some (.vbool bb) := by
    refine aux_bool_cmd hm ha hmain0 ?_ ?_
    · rw [hAF]; exact hafm
    · rw [hAF]; decide
  have hd : "checkpoint.initial_load_model_weights_only" ∈ catalogDests := by
    decide
  have hres := resolved_cmd hok
    "checkpoint.initial_load_model_weights_only" hd hcmd
  rw [hlb]
  exact hres

/-- Witness for C4: a successful run typing the affirmative flag and
then the negation flag satisfies the hypotheses; the resolved value is
the last flag's polarity. -/
theorem claim_C4_witness :
    (parse_args none ["--checkpoint.initial_load_model_weights_only",
        "--checkpoint.no_initial_load_model_weights_only"] []).outcome = .ok () ∧
    "--checkpoint.initial_load_model_weights_only" ∈
      ["--checkpoint.initial_load_model_weights_only",
       "--checkpoint.no_initial_load_model_weights_only"] ∧
    "--checkpoint.no_initial_load_model_weights_only" ∈
      ["--checkpoint.initial_load_model_weights_only",
       "--checkpoint.no_initial_load_model_weights_only"] ∧
    resolvedAt (parse_args none ["--checkpoint.initial_load_model_weights_only",
        "--checkpoint.no_initial_load_model_weights_only"] [])
        "checkpoint" "initial_load_model_weights_only" =
      (lastBoolFlag catalog "checkpoint.initial_load_model_weights_only"
        ["--checkpoint.initial_load_model_weights_only",
         "--checkpoint.no_initial_load_model_weights_only"]).map Value.vbool := by
  have h1 : (parse_args none ["--checkpoint.initial_load_model_weights_only",
      "--checkpoint.no_initial_load_model_weights_only"] []).outcome = .ok () := by
    decide
  exact ⟨h1, by decide, by decide,
    claim_C4.1 none ["--checkpoint.initial_load_model_weights_only",
      "--checkpoint.no_initial_load_model_weights_only"] [] h1
      (by decide) (by decide)⟩

/-! ### Claim C5 -/

/-- C5 (counterexample): the claim that space-separated command-line
tokens of a list option are "concatenated into one flat ordered list"
fails.  With `--model.converters a b` the run succeeds and the option
resolves to `["a"]`: the command-line-only pass registers the option
with a single value token, so `b` is dropped, not concatenated. -/
theorem claim_C5_counterexample :
    ((parse_args none ["--model.converters", "a", "b"] []).outcome = .ok ()
     ∧ resolvedAt (parse_args none ["--model.converters", "a", "b"] [])
         "model" "converters" = some (.vlist ["a"]))
    ∧ resolvedAt (parse_args none ["--model.converters", "a", "b"] [])
        "model" "converters" ≠ some (.vlist ["a", "b"]) := by
  have h2 : resolvedAt (parse_args none ["--model.converters", "a", "b"] [])
      "model" "converters" = some (Value.vlist ["a"]) := by decide
  refine ⟨⟨by decide, h2⟩, ?_⟩
  rw [h2]
  decide

/-- C5 (amended): for every option declared with `type=string_list` and
`nargs` (all three of them), in any successful run whose argv contains
the option's flag, the option resolves to the flat comma-split,
whitespace-stripped, empty-dropping list of the single token following
the last occurrence of the flag, whatever else argv and the
configuration file contain: extra value tokens after that one are
dropped and earlier occurrences are overwritten (last occurrence wins),
and the resolved value is never a nested list.  The two decided runs
exhibit the overwriting and the dropping concretely. -/
theorem claim_C5_amended :
    (∀ d ∈ stringListArgNames, ∀ (st : Option TwoLevel) (fs : FS)
      (pre post : List String) (s : String),
      (parse_args st (pre ++ ("--" ++ d) :: s :: post) fs).outcome = .ok () →
      ("--" ++ d) ∉ post →
      resolvedAt (parse_args st (pre ++ ("--" ++ d) :: s :: post) fs)
          (splitDot d).1 (splitDot d).2 = some (.vlist (string_list s)))
    ∧ ((parse_args none
          ["--model.converters", "a", "--model.converters", "c,d"] []).outcome =
        .ok ()
       ∧ resolvedAt (parse_args none
          ["--model.converters", "a", "--model.converters", "c,d"] [])
          "model" "converters" = some (.vlist ["c", "d"]))
    ∧ resolvedAt (parse_args none ["--model.converters", "a", "b"] [])
        "model" "converters" = some (.vlist ["a"]) := by
  refine ⟨?_, ⟨by decide, by decide⟩, by decide⟩
  intro d hd st fs pre post s hok hnp
  obtain ⟨hm, ha, _, _, _⟩ := parse_ok_elim hok
  have hfo : isOptLike ("--" ++ d) = true := by
    rw [slNames_eq] at hd
    rw [show slNamesLit =
        ["model.converters", "experimental.pipeline_parallel_split_points",
         "checkpoint.exclude_from_loading"] from rfl] at hd
    simp only [List.mem_cons, List.not_mem_nil, or_false] at hd
    rcases hd with rfl | rfl | rfl <;> decide
  have hcmd : List.lookup d (cmdOf (pre ++ ("--" ++ d) :: s :: post)) =
      some (.vlist (string_list s)) :=
    aux_sl_cmd hd hm ha hnp hfo
  exact resolved_cmd hok d (sl_sub_dests d hd) hcmd

/-- Witness for the amended C5: a successful run typing
`--model.converters "a, b ,c"` resolves the option to the flat
stripped list `["a","b","c"]`. -/
theorem claim_C5_witness :
    "model.converters" ∈ stringListArgNames ∧
    (parse_args none ["--model.converters", "a, b ,c"] []).outcome = .ok () ∧
    ("--" ++ "model.converters") ∉ ([] : List String) ∧
    resolvedAt (parse_args none ["--model.converters", "a, b ,c"] [])
        "model" "converters" = some (.vlist ["a", "b", "c"]) := by
  have hd : "model.converters" ∈ stringListArgNames := by decide
  have hok : (parse_args none ["--model.converters", "a, b ,c"] []).outcome =
      .ok () := by decide
  exact ⟨hd, hok, List.not_mem_nil _,
    claim_C5_amended.1 "model.converters" hd none [] [] [] "a, b ,c" hok
      (List.not_mem_nil _)⟩

/-! ### Claim C6 -/

/-- C6: when the named configuration file is missing or malformed,
`parse_args` logs the file path and the underlying error message,
re-raises the exception, and leaves `self.args_dict` exactly as it was
before the call (`None` on first use), so `to_dict` never exposes a
partial result. -/
theorem claim_C6 (st : Option TwoLevel) (argv : List String) (fs : FS)
    (ns cmd : NS) (p m : String)
    (hm : parseMain argv = .ok ns) (ha : parseAux ns argv = .ok cmd)
    (hcf : configFileOf ns = some (.vstr p))
    (hmiss : fsRead fs p = .missing m ∨ fsRead fs p = .badToml m) :
    parse_args st argv fs =
      ⟨st, ["Error while loading the configuration file: " ++ p,
            "Error details: " ++ m], .error (.fileErr m)⟩
    ∧ to_dict (parse_args st argv fs).state = to_dict st := by
  have he : fileOverlayStage ns (toTwoLevel ns) fs = .error (p, m) := by
    unfold fileOverlayStage
    rw [hcf]
    show (match fsRead fs p with
      | FileRes.ok t => Except.ok (applyFileOverlay (toTwoLevel ns) t)
      | FileRes.missing m => Except.error (p, m)
      | FileRes.badToml m => Except.error (p, m)) = _
    rcases hmiss with hmiss | hmiss <;> rw [hmiss]
  have hres : parse_args st argv fs =
      ⟨st, ["Error while loading the configuration file: " ++ p,
            "Error details: " ++ m], .error (.fileErr m)⟩ := by
    simp only [parse_args, hm, ha, he]
  exact ⟨hres, by rw [hres]⟩

/-- Witness for C6: a missing file aborts the first `parse_args` of a
fresh `JobConfig` with both log lines, and `to_dict` still returns
`None`. -/
theorem claim_C6_witness :
    parseMain ["--job.config_file", "nope.toml"] =
      .ok (nsOf ["--job.config_file", "nope.toml"]) ∧
    configFileOf (nsOf ["--job.config_file", "nope.toml"]) = some (.vstr "nope.toml") ∧
    fsRead [] "nope.toml" = .missing ("No such file or directory: " ++ "nope.toml") ∧
    parse_args none ["--job.config_file", "nope.toml"] [] =
      ⟨none, ["Error while loading the configuration file: " ++ "nope.toml",
              "Error details: " ++ ("No such file or directory: " ++ "nope.toml")],
        .error (.fileErr ("No such file or directory: " ++ "nope.toml"))⟩ ∧
    to_dict (parse_args none ["--job.config_file", "nope.toml"] []).state = none := by
  have hm : parseMain ["--job.config_file", "nope.toml"] =
      .ok (nsOf ["--job.config_file", "nope.toml"]) := rfl
  have ha : parseAux (nsOf ["--job.config_file", "nope.toml"])
      ["--job.config_file", "nope.toml"] =
      .ok (cmdOf ["--job.config_file", "nope.toml"]) := rfl
  have hcf : configFileOf (nsOf ["--job.config_file", "nope.toml"]) =
      some (.vstr "nope.toml") := by decide
  have hmiss : fsRead ([] : FS) "nope.toml" =
      .missing ("No such file or directory: " ++ "nope.toml") := rfl
  obtain ⟨h1, h2⟩ := claim_C6 none ["--job.config_file", "nope.toml"] [] _ _
    "nope.toml" ("No such file or directory: " ++ "nope.toml") hm ha hcf (Or.inl hmiss)
  exact ⟨hm, hcf, hmiss, h1, h2⟩

/-! ### Claim C7 -/

/-- C7: once the run reaches validation (both parser passes and the
file overlay succeeded), `parse_args` raises the `AssertionError` if
and only if the resolved `model.config` or `model.tokenizer_path` is
empty — formalized as Python falsiness, which for these string-typed
options means the empty string — and returns normally when both are
non-empty. -/
theorem claim_C7 (st : Option TwoLevel) (argv : List String) (fs : FS)
    (ns cmd : NS) (d1 : TwoLevel)
    (hm : parseMain argv = .ok ns) (ha : parseAux ns argv = .ok cmd)
    (hfo : fileOverlayStage ns (toTwoLevel ns) fs = .ok d1) :
    ((parse_args st argv fs).outcome = .error .assertFail ↔
      ¬(pyTruthy ((lookup2 (finalDict cmd d1) "model" "config").getD .vnone) = true ∧
        pyTruthy ((lookup2 (finalDict cmd d1) "model" "tokenizer_path").getD .vnone) = true))
    ∧ (pyTruthy ((lookup2 (finalDict cmd d1) "model" "config").getD .vnone) = true →
      pyTruthy ((lookup2 (finalDict cmd d1) "model" "tokenizer_path").getD .vnone) = true →
      (parse_args st argv fs).outcome = .ok ()) := by
  have hv : validateOk (finalDict cmd d1) =
      (pyTruthy ((lookup2 (finalDict cmd d1) "model" "config").getD .vnone) &&
        pyTruthy ((lookup2 (finalDict cmd d1) "model" "tokenizer_path").getD .vnone)) := rfl
  by_cases hval : validateOk (finalDict cmd d1) = true
  · have hout : (parse_args st argv fs).outcome = .ok () := by
      simp only [parse_args, hm, ha, hfo, hval, if_true]
    have hand := hval
    rw [hv, Bool.and_eq_true] at hand
    constructor
    · rw [hout]
      constructor
      · intro hc
        exact absurd hc (fun hc2 => Except.noConfusion hc2)
      · intro hc
        exact absurd hand hc
    · intro _ _
      exact hout
  · have hout : (parse_args st argv fs).outcome = .error .assertFail := by
      simp only [parse_args, hm, ha, hfo]
      rw [if_neg hval]
    have hand : ¬(pyTruthy ((lookup2 (finalDict cmd d1) "model" "config").getD .vnone) = true ∧
        pyTruthy ((lookup2 (finalDict cmd d1) "model" "tokenizer_path").getD .vnone) = true) := by
      intro hc
      exact hval (by rw [hv, Bool.and_eq_true]; exact hc)
    constructor
    · rw [hout]
      exact ⟨fun _ => hand, fun _ => rfl⟩
    · intro h1 h2
      exact absurd ⟨h1, h2⟩ hand

/-- Witness for C7: forcing `model.config` to the empty string trips
the assertion, and the default configuration passes validation. -/
theorem claim_C7_witness :
    parseMain ["--model.config", ""] = .ok (nsOf ["--model.config", ""]) ∧
    ((parse_args none ["--model.config", ""] []).outcome = .error .assertFail ↔
      ¬(pyTruthy ((lookup2 (finalDict (cmdOf ["--model.config", ""])
          (d1Of ["--model.config", ""] [])) "model" "config").getD .vnone) = true ∧
        pyTruthy ((lookup2 (finalDict (cmdOf ["--model.config", ""])
          (d1Of ["--model.config", ""] [])) "model" "tokenizer_path").getD .vnone) = true)) ∧
    (parse_args none ["--model.config", ""] []).outcome = .error .assertFail := by
  have hm : parseMain ["--model.config", ""] = .ok (nsOf ["--model.config", ""]) := rfl
  have ha : parseAux (nsOf ["--model.config", ""]) ["--model.config", ""] =
      .ok (cmdOf ["--model.config", ""]) := rfl
  have hfo : fileOverlayStage (nsOf ["--model.config", ""])
      (toTwoLevel (nsOf ["--model.config", ""])) [] =
      .ok (d1Of ["--model.config", ""] []) := rfl
  obtain ⟨hiff, _⟩ := claim_C7 none ["--model.config", ""] [] _ _ _ hm ha hfo
  refine ⟨hm, hiff, ?_⟩
  decide

/-! ### Claim C8 -/

/-- C8: the command-line-only re-parse never fails on tokens it does
not recognize — an argv of entirely unrecognized tokens parses to the
empty namespace — while the full parser fails on any argv containing
an unknown option-like token (such tokens are never consumed as
values, so every one of them is a top-level flag). -/
theorem claim_C8 :
    (∀ (ns : NS) (argv2 : List String),
      (∀ t ∈ argv2, findAct (auxActions ns) t = none) →
      parseAux ns argv2 = .ok [])
    ∧ (∀ (argv : List String) (t : String), t ∈ argv → isOptLike t = true →
        (∀ a ∈ catalog, a.flag ≠ t) → parseMain argv = .error ()) := by
  constructor
  · intro ns argv2 h
    exact runParse_skip_all (auxActions ns) _ argv2 [] h (Nat.lt_succ_self _)
  · intro argv t hmem hopt hunk
    refine runParse_unknown_err catalog hopt ?_ _ argv _ hmem
    exact List.find?_eq_none.mpr (fun a ha hc => hunk a ha (of_decide_eq_true hc))

/-- Witness for C8: the auxiliary parser ignores `--bogus` while the
full parser rejects it. -/
theorem claim_C8_witness :
    (∀ t ∈ ["--bogus"], findAct (auxActions (nsOf [])) t = none) ∧
    parseAux (nsOf []) ["--bogus"] = .ok [] ∧
    isOptLike "--bogus" = true ∧
    (∀ a ∈ catalog, a.flag ≠ "--bogus") ∧
    parseMain ["--bogus"] = .error () := by
  have h1 : ∀ t ∈ ["--bogus"], findAct (auxActions (nsOf [])) t = none := by decide
  have h3 : isOptLike "--bogus" = true := by decide
  have h4 : ∀ a ∈ catalog, a.flag ≠ "--bogus" := by decide
  exact ⟨h1, claim_C8.1 (nsOf []) ["--bogus"] h1, h3, h4,
    claim_C8.2 ["--bogus"] "--bogus" (List.mem_cons_self _ _) h3 h4⟩

/-! ### Claim C9 -/

/-- C9: the file overlay merges exactly the keys the file specifies —
per top-level section a shallow overwrite, with unspecified keys
retaining their prior values — and file sections or keys the catalog
does not declare are admitted into the resolved mapping without
validation or error. -/
theorem claim_C9 :
    (∀ (d file : TwoLevel) (s k : String), TwoWF file →
      lookup2 (applyFileOverlay d file) s k =
        match lookup2 file s k with
        | some v => some v
        | none => lookup2 d s k)
    ∧ ((parse_args none ["--job.config_file", "c.toml"]
        [("c.toml", .ok [("training", [("steps", .vint 5000), ("newkey", .vstr "x")]),
          ("custom", [("foo", .vint 1)])])]).outcome,
      resolvedAt (parse_args none ["--job.config_file", "c.toml"]
        [("c.toml", .ok [("training", [("steps", .vint 5000), ("newkey", .vstr "x")]),
          ("custom", [("foo", .vint 1)])])]) "custom" "foo",
      resolvedAt (parse_args none ["--job.config_file", "c.toml"]
        [("c.toml", .ok [("training", [("steps", .vint 5000), ("newkey", .vstr "x")]),
          ("custom", [("foo", .vint 1)])])]) "training" "newkey",
      resolvedAt (parse_args none ["--job.config_file", "c.toml"]
        [("c.toml", .ok [("training", [("steps", .vint 5000), ("newkey", .vstr "x")]),
          ("custom", [("foo", .vint 1)])])]) "training" "steps",
      resolvedAt (parse_args none ["--job.config_file", "c.toml"]
        [("c.toml", .ok [("training", [("steps", .vint 5000), ("newkey", .vstr "x")]),
          ("custom", [("foo", .vint 1)])])]) "training" "batch_size") =
      (.ok (), some (.vint 1), some (.vstr "x"), some (.vint 5000), some (.vint 8)) := by
  constructor
  · intro d file s k hwf
    exact lookup2_overlay d file hwf s k
  · decide

/-- Witness for C9 at a concrete overlay: a file key overwrites, an
absent key is retained, an unknown section is admitted. -/
theorem claim_C9_witness :
    TwoWF [("training", [("steps", Value.vint 5000)]), ("custom", [("foo", Value.vint 1)])] ∧
    lookup2 (applyFileOverlay
      [("training", [("steps", Value.vint 10000), ("seq_len", Value.vint 2048)])]
      [("training", [("steps", Value.vint 5000)]), ("custom", [("foo", Value.vint 1)])])
      "training" "steps" = some (.vint 5000) ∧
    lookup2 (applyFileOverlay
      [("training", [("steps", Value.vint 10000), ("seq_len", Value.vint 2048)])]
      [("training", [("steps", Value.vint 5000)]), ("custom", [("foo", Value.vint 1)])])
      "training" "seq_len" = some (.vint 2048) ∧
    lookup2 (applyFileOverlay
      [("training", [("steps", Value.vint 10000), ("seq_len", Value.vint 2048)])]
      [("training", [("steps", Value.vint 5000)]), ("custom", [("foo", Value.vint 1)])])
      "custom" "foo" = some (.vint 1) := by
  have hwf : TwoWF [("training", [("steps", Value.vint 5000)]),
      ("custom", [("foo", Value.vint 1)])] := by decide
  refine ⟨hwf, ?_, ?_, ?_⟩
  · rw [claim_C9.1 _ _ _ _ hwf]
    decide
  · rw [claim_C9.1 _ _ _ _ hwf]
    decide
  · rw [claim_C9.1 _ _ _ _ hwf]
    decide

/-! ### Claim C10 -/

/-- C10: before `parse_args` has ever been called, `to_dict` returns
`None` (not an empty mapping and not a default-valued configuration);
after a successful `parse_args`, `to_dict` returns the stored resolved
mapping itself. -/
theorem claim_C10 :
    to_dict initState = none
    ∧ (∀ (e : TwoLevel), to_dict initState ≠ some e)
    ∧ (∀ (st : Option TwoLevel) (argv : List String) (fs : FS),
        (parse_args st argv fs).outcome = .ok () →
        (parse_args st argv fs).state =
          some (finalDict (cmdOf argv) (d1Of argv fs))
        ∧ to_dict (parse_args st argv fs).state =
          some (finalDict (cmdOf argv) (d1Of argv fs))) := by
  refine ⟨rfl, fun e h => Option.noConfusion h, fun st argv fs hok => ?_⟩
  obtain ⟨_, _, _, _, hstate⟩ := parse_ok_elim hok
  exact ⟨hstate, hstate⟩

/-- Witness for C10 after one successful call. -/
theorem claim_C10_witness :
    (parse_args none [] []).outcome = .ok ()
    ∧ (parse_args none [] []).state = some (finalDict (cmdOf []) (d1Of [] []))
    ∧ to_dict (parse_args none [] []).state = some (finalDict (cmdOf []) (d1Of [] [])) := by
  have hok : (parse_args none [] []).outcome = .ok () := by decide
  obtain ⟨h1, h2⟩ := claim_C10.2.2 none [] [] hok
  exact ⟨hok, h1, h2⟩

end Flame
